import Mathlib

/-!
# Irradiance precomputation (`filter-aseem.cpp`), matrices and colours

A shallow embedding of the irradiance filter: the integrator loop nest of `main`,
the derivation of the output file name, and the two codec adapters `read` and `write`;
of the matrix functions of `transform.cpp`; and of `HSV2RGB` of `scene.cpp`.

Floating-point arithmetic is read over an ordered field `α` (the theorems take `α = ℝ`),
with the library functions `sin` and `cos` passed in explicitly; the `int` loop
counters are natural numbers, the `int` image dimensions are integers.
The loop nest is embedded in its sequential order of execution; its execution by several
threads is embedded as a run of blocks of statements on the shared variables.
-/

namespace FilterAseem

section Integrator

variable {α : Type} [LinearOrderedField α]

/-- The local constant `float pi = 3.141592f;` of `main`, read as the decimal written. -/
def pi : α := 3.141592

/-- The compound assignment `buf[idx] += x` on a `std::vector<float>`. -/
def addAt (buf : List α) (idx : Nat) (x : α) : List α :=
  buf.set idx (buf.getD idx 0 + x)

/-- Body of the innermost loop (lines 100-121): direction of input pixel `(l, k)`, the
dot product with the output direction, the early `continue`, and the three accumulations. -/
def inputPixelStep (sin cos : α → α) (pi : α) (inImage : List α) (inWidth inHeight : Int)
    (outWidth : Int) (xOut yOut zOut : α) (j i l k : Nat) (outImage : List α) : List α :=
  let angTheta := (pi * ((l : α) + (1 / 2))) / (inHeight : α)
  let angPhi := (2 * pi * ((k : α) + (1 / 2))) / (inWidth : α)
  let xIn := sin angTheta * cos angPhi
  let yIn := sin angTheta * sin angPhi
  let zIn := cos angTheta
  let omegaDot := xOut * xIn + yOut * yIn + zOut * zIn
  if omegaDot < 0 then
    outImage
  else
    let outImage := addAt outImage ((3 * (j : Int) * outWidth) + (3 * (i : Int)) + 0).toNat
      (inImage.getD ((3 * (l : Int) * inWidth) + (3 * (k : Int)) + 0).toNat 0 *
        omegaDot * sin angTheta * pi / (inHeight : α) * 2 * pi / (inWidth : α))
    let outImage := addAt outImage ((3 * (j : Int) * outWidth) + (3 * (i : Int)) + 1).toNat
      (inImage.getD ((3 * (l : Int) * inWidth) + (3 * (k : Int)) + 1).toNat 0 *
        omegaDot * sin angTheta * pi / (inHeight : α) * 2 * pi / (inWidth : α))
    addAt outImage ((3 * (j : Int) * outWidth) + (3 * (i : Int)) + 2).toNat
      (inImage.getD ((3 * (l : Int) * inWidth) + (3 * (k : Int)) + 2).toNat 0 *
        omegaDot * sin angTheta * pi / (inHeight : α) * 2 * pi / (inWidth : α))

/-- The two loops over the input pixels (lines 98-123) for one output pixel `(j, i)` whose
direction is `(xOut, yOut, zOut)`: `l` runs over the input rows, `k` over the columns. -/
def accumulatePixel (sin cos : α → α) (pi : α) (inImage : List α) (inWidth inHeight : Int)
    (outWidth : Int) (xOut yOut zOut : α) (j i : Nat) (outImage : List α) : List α :=
  (List.range inHeight.toNat).foldl
    (fun out l =>
      (List.range inWidth.toNat).foldl
        (fun out k =>
          inputPixelStep sin cos pi inImage inWidth inHeight outWidth xOut yOut zOut j i l k out)
        out)
    outImage

/-- Body of the loop over output columns (lines 90-123): direction of output pixel `(j, i)`
followed by the accumulation over all input pixels. -/
def outputPixelStep (sin cos : α → α) (pi : α) (inImage : List α) (inWidth inHeight : Int)
    (outWidth outHeight : Int) (j i : Nat) (outImage : List α) : List α :=
  let angTheta := (pi * ((j : α) + (1 / 2))) / (outHeight : α)
  let angPhi := (2 * pi * ((i : α) + (1 / 2))) / (outWidth : α)
  let xOut := sin angTheta * cos angPhi
  let yOut := sin angTheta * sin angPhi
  let zOut := cos angTheta
  accumulatePixel sin cos pi inImage inWidth inHeight outWidth xOut yOut zOut j i outImage

/-- The whole loop nest of `main` (lines 88-125): `j` runs over the output rows, `i` over
the output columns. -/
def integrate (sin cos : α → α) (pi : α) (inImage : List α) (inWidth inHeight : Int)
    (outWidth outHeight : Int) (outImage : List α) : List α :=
  (List.range outHeight.toNat).foldl
    (fun out j =>
      (List.range outWidth.toNat).foldl
        (fun out i =>
          outputPixelStep sin cos pi inImage inWidth inHeight outWidth outHeight j i out)
        out)
    outImage

/-- The direction `(xOut, yOut, zOut)` computed for output pixel `(j, i)` (lines 91-95). -/
def outDirection (sin cos : α → α) (pi : α) (outWidth outHeight : Int) (j i : Nat) :
    α × α × α :=
  let angTheta := (pi * ((j : α) + (1 / 2))) / (outHeight : α)
  let angPhi := (2 * pi * ((i : α) + (1 / 2))) / (outWidth : α)
  let xOut := sin angTheta * cos angPhi
  let yOut := sin angTheta * sin angPhi
  let zOut := cos angTheta
  (xOut, yOut, zOut)

/-- The direction `(xIn, yIn, zIn)` computed for input pixel `(l, k)` (lines 101-105). -/
def inDirection (sin cos : α → α) (pi : α) (inWidth inHeight : Int) (l k : Nat) :
    α × α × α :=
  let angTheta := (pi * ((l : α) + (1 / 2))) / (inHeight : α)
  let angPhi := (2 * pi * ((k : α) + (1 / 2))) / (inWidth : α)
  let xIn := sin angTheta * cos angPhi
  let yIn := sin angTheta * sin angPhi
  let zIn := cos angTheta
  (xIn, yIn, zIn)

/-- The dot product `omegaDot` of line 107. -/
def omegaDot (N L : α × α × α) : α :=
  N.1 * L.1 + N.2.1 * L.2.1 + N.2.2 * L.2.2

/-! ### The specification's formulas -/

/-- Polar angle of row `r` of a raster with `H` rows, in the words of the specification. -/
def specTheta (pi : α) (r H : Nat) : α := pi * ((r : α) + 0.5) / (H : α)

/-- Azimuthal angle of column `c` of a raster with `W` columns, in the words of the
specification. -/
def specPhi (pi : α) (c W : Nat) : α := 2 * pi * ((c : α) + 0.5) / (W : α)

/-- The direction mapping of the specification. -/
def specDirection (sin cos : α → α) (pi : α) (r c H W : Nat) : α × α × α :=
  (sin (specTheta pi r H) * cos (specPhi pi c W),
   sin (specTheta pi r H) * sin (specPhi pi c W),
   cos (specTheta pi r H))

/-- The `cosTerm` of the specification for output pixel (column `i`, row `j`) and input
pixel (column `k`, row `l`). -/
def specCosTerm (sin cos : α → α) (pi : α) (inW inH outW outH : Nat) (j i l k : Nat) : α :=
  omegaDot (specDirection sin cos pi j i outH outW) (specDirection sin cos pi l k inH inW)

/-- Channel `ch` of input pixel (row `l`, column `k`) in the row-major, channel-interleaved
layout of the specification. -/
def specInput (inImage : List α) (inW : Nat) (l k ch : Nat) : α :=
  inImage.getD (3 * (l * inW + k) + ch) 0

/-- The reference double sum of the specification for output pixel (column `i`, row `j`)
and channel `ch`: the sum over the input pixels whose `cosTerm` is not negative. -/
def referenceSum (sin cos : α → α) (pi : α) (inImage : List α) (inW inH outW outH : Nat)
    (j i ch : Nat) : α :=
  ∑ l ∈ Finset.range inH, ∑ k ∈ Finset.range inW,
    if 0 ≤ specCosTerm sin cos pi inW inH outW outH j i l k then
      specInput inImage inW l k ch * specCosTerm sin cos pi inW inH outW outH j i l k *
        sin (specTheta pi l inH) * (pi / (inH : α)) * (2 * pi / (inW : α))
    else 0

/-! ### Additive buffer updates -/

/-- The update `f` keeps the length of every buffer and adds `c m` to entry `m`. -/
def Adds (f : List α → List α) (c : Nat → α) : Prop :=
  ∀ b : List α, (f b).length = b.length ∧
    ∀ m, m < b.length → (f b).getD m 0 = b.getD m 0 + c m

/-- What the body of the innermost loop adds to entry `m` of the output buffer. -/
def stepDelta (sin cos : α → α) (pi : α) (inImage : List α) (inWidth inHeight : Int)
    (outWidth : Int) (xOut yOut zOut : α) (j i l k : Nat) (m : Nat) : α :=
  let angTheta := (pi * ((l : α) + (1 / 2))) / (inHeight : α)
  let angPhi := (2 * pi * ((k : α) + (1 / 2))) / (inWidth : α)
  let omegaDot := xOut * (sin angTheta * cos angPhi) + yOut * (sin angTheta * sin angPhi) +
    zOut * cos angTheta
  if omegaDot < 0 then 0
  else
    ((if m = ((3 * (j : Int) * outWidth) + (3 * (i : Int)) + 0).toNat then
        inImage.getD ((3 * (l : Int) * inWidth) + (3 * (k : Int)) + 0).toNat 0 *
          omegaDot * sin angTheta * pi / (inHeight : α) * 2 * pi / (inWidth : α)
      else 0) +
     (if m = ((3 * (j : Int) * outWidth) + (3 * (i : Int)) + 1).toNat then
        inImage.getD ((3 * (l : Int) * inWidth) + (3 * (k : Int)) + 1).toNat 0 *
          omegaDot * sin angTheta * pi / (inHeight : α) * 2 * pi / (inWidth : α)
      else 0)) +
    (if m = ((3 * (j : Int) * outWidth) + (3 * (i : Int)) + 2).toNat then
        inImage.getD ((3 * (l : Int) * inWidth) + (3 * (k : Int)) + 2).toNat 0 *
          omegaDot * sin angTheta * pi / (inHeight : α) * 2 * pi / (inWidth : α)
      else 0)

end Integrator

/-! ### The codec adapters and `main` -/

/-- Mode argument of `fopen`. -/
inductive Mode where
  | rb
  | wb

/-- The lines the program prints with `printf`. -/
inductive Message where
  | cantOpenFile
  | rgbeReadError
  | readDone
  | rgbeWriteError
  | wroteDone

/-- What a run does to the outside world, in the order of execution. A stream is `none`
when `fopen` returned the null pointer. -/
inductive Event (α : Type) where
  | printf (msg : Message)
  | writeHeader (fp : Option Nat) (width height : Int)
  | writePixels (fp : Option Nat) (data : List α) (width height : Int)
  | fclose (fp : Option Nat)

/-- How a function ends: it returns, it calls `exit`, it leaves through an uncaught C++
exception, or its behaviour is undefined (signed `int` overflow). -/
inductive Outcome (β : Type) where
  | returned (value : β)
  | exited (status : Int)
  | thrown
  | undefined

/-- A run: the events it produced and how it ended. -/
structure Run (α β : Type) where
  trace : List (Event α)
  outcome : Outcome β

/-- The library the adapters call (`fopen` and the functions and the constant declared in
`rgbe.h`, which is not among the sources): each function is a parameter. A stream is a
number; `RGBE_ReadHeader` gives its return code and the width and height it stores;
`RGBE_ReadPixels_RLE` gives its return code and the floats it stores through the data
pointer, by index. -/
structure Rgbe (α : Type) where
  RGBE_RETURN_SUCCESS : Int
  fopen : List Char → Mode → Option Nat
  RGBE_ReadHeader : Nat → Int × Int × Int
  RGBE_ReadPixels_RLE : Nat → Int → Int → Int × (Nat → Option α)
  RGBE_WriteHeader : Option Nat → Int → Int → Int
  RGBE_WritePixels_RLE : Option Nat → List α → Int → Int → Int

/-- Whether an integer is a value of the 32-bit type `int`. -/
def fitsInt (n : Int) : Bool :=
  decide (-2147483648 ≤ n) && decide (n ≤ 2147483647)

/-- The call `image.resize(n)` for `0 ≤ n`: the first `n` elements are kept and zeros are
appended up to length `n`. -/
def resize {α : Type} [Zero α] (image : List α) (n : Nat) : List α :=
  image.take n ++ List.replicate (n - image.length) 0

/-- The function `read` (lines 11-38). The product `3*width*height` is computed in `int` as
`(3*width)*height`; when a product leaves the range of `int` the behaviour is undefined, and
a negative product, converted to `size_t`, exceeds the largest vector size, so that `resize`
throws. -/
def read {α : Type} [Zero α] (R : Rgbe α) (inName : List Char) (image : List α) :
    Run α (List α × Int × Int) :=
  match R.fopen inName Mode.rb with
  | none => ⟨[Event.printf Message.cantOpenFile], Outcome.exited (-1)⟩
  | some fp =>
    let rc := (R.RGBE_ReadHeader fp).1
    let width := (R.RGBE_ReadHeader fp).2.1
    let height := (R.RGBE_ReadHeader fp).2.2
    if rc ≠ R.RGBE_RETURN_SUCCESS then
      ⟨[Event.printf Message.rgbeReadError], Outcome.exited (-1)⟩
    else if fitsInt (3 * width) = false ∨ fitsInt (3 * width * height) = false then
      ⟨[], Outcome.undefined⟩
    else if 3 * width * height < 0 then
      ⟨[], Outcome.thrown⟩
    else
      let image := resize image (3 * width * height).toNat
      let rc := (R.RGBE_ReadPixels_RLE fp width height).1
      let image := image.mapIdx
        (fun idx v => ((R.RGBE_ReadPixels_RLE fp width height).2 idx).getD v)
      if rc ≠ R.RGBE_RETURN_SUCCESS then
        ⟨[Event.printf Message.rgbeReadError], Outcome.exited (-1)⟩
      else
        ⟨[Event.fclose (some fp), Event.printf Message.readDone],
          Outcome.returned (image, width, height)⟩

/-- The function `write` (lines 41-62). -/
def write {α : Type} (R : Rgbe α) (outName : List Char) (image : List α)
    (width height : Int) : Run α Unit :=
  let fp := R.fopen outName Mode.wb
  let rc := R.RGBE_WriteHeader fp width height
  if rc ≠ R.RGBE_RETURN_SUCCESS then
    ⟨[Event.writeHeader fp width height, Event.printf Message.rgbeWriteError],
      Outcome.exited (-1)⟩
  else
    let rc := R.RGBE_WritePixels_RLE fp image width height
    if rc ≠ R.RGBE_RETURN_SUCCESS then
      ⟨[Event.writeHeader fp width height, Event.writePixels fp image width height,
          Event.printf Message.rgbeWriteError],
        Outcome.exited (-1)⟩
    else
      ⟨[Event.writeHeader fp width height, Event.writePixels fp image width height,
          Event.fclose fp, Event.printf Message.wroteDone],
        Outcome.returned ()⟩

/-- The call `s.substr(pos, count)` of `std::string` for `pos` within the string. -/
def substr (s : List Char) (pos count : Nat) : List Char :=
  (s.drop pos).take count

/-- The output name of line 69: `inName.substr(0, inName.length()-4) + "-irradiance.hdr"`,
the subtraction being the one of the 64-bit unsigned type `size_t`. -/
def outName (inName : List Char) : List Char :=
  substr inName 0 ((inName.length + 2 ^ 64 - 4) % 2 ^ 64) ++ "-irradiance.hdr".toList

/-- The outcome of a callee as seen by `main`: a return lets `main` go on (and end with
the status `v`), anything else ends the program in the same way. -/
def Outcome.as {β γ : Type} (o : Outcome β) (v : γ) : Outcome γ :=
  match o with
  | Outcome.returned _ => Outcome.returned v
  | Outcome.exited status => Outcome.exited status
  | Outcome.thrown => Outcome.thrown
  | Outcome.undefined => Outcome.undefined

/-- The function `main` (lines 65-130) for the command-line argument `argv1`; the value
returned is the exit status. -/
def main {α : Type} [LinearOrderedField α] (sin cos : α → α) (R : Rgbe α)
    (argv1 : List Char) : Run α Int :=
  let inName := argv1
  let outName := outName inName
  let r := read R inName []
  match r.outcome with
  | Outcome.returned (inImage, inWidth, inHeight) =>
    let outWidth : Int := 200
    let outHeight : Int := 100
    let outImage : List α := List.replicate (3 * outWidth * outHeight).toNat 0
    let outImage :=
      integrate sin cos pi inImage inWidth inHeight outWidth outHeight outImage
    let w := write R outName outImage outWidth outHeight
    ⟨r.trace ++ w.trace, w.outcome.as 0⟩
  | Outcome.exited status => ⟨r.trace, Outcome.exited status⟩
  | Outcome.thrown => ⟨r.trace, Outcome.thrown⟩
  | Outcome.undefined => ⟨r.trace, Outcome.undefined⟩

/-- A library whose header reader reports the width -1 and the height -1, whose pixel
reader stores nothing, and whose calls all succeed. -/
def negativeDimCodec (α : Type) : Rgbe α where
  RGBE_RETURN_SUCCESS := 0
  fopen := fun _ _ => some 3
  RGBE_ReadHeader := fun _ => (0, -1, -1)
  RGBE_ReadPixels_RLE := fun _ _ _ => (0, fun _ => none)
  RGBE_WriteHeader := fun _ _ _ => 0
  RGBE_WritePixels_RLE := fun _ _ _ _ => 0

/-- A library whose header reader reports a 2x1 image, whose pixel reader stores the value
`idx + 1` at index `idx`, and whose calls all succeed. -/
def sampleCodec (α : Type) [LinearOrderedField α] : Rgbe α where
  RGBE_RETURN_SUCCESS := 0
  fopen := fun _ _ => some 3
  RGBE_ReadHeader := fun _ => (0, 2, 1)
  RGBE_ReadPixels_RLE := fun _ _ _ => (0, fun idx => some ((idx : α) + 1))
  RGBE_WriteHeader := fun _ _ _ => 0
  RGBE_WritePixels_RLE := fun _ _ _ _ => 0

/-- A library in which no file can be opened for writing; its writers report failure
(return code -1) on the null stream. -/
def unwritableCodec (α : Type) : Rgbe α where
  RGBE_RETURN_SUCCESS := 0
  fopen := fun _ mode =>
    match mode with
    | Mode.rb => some 3
    | Mode.wb => none
  RGBE_ReadHeader := fun _ => (0, 2, 1)
  RGBE_ReadPixels_RLE := fun _ _ _ => (0, fun _ => none)
  RGBE_WriteHeader := fun fp _ _ =>
    match fp with
    | none => -1
    | some _ => 0
  RGBE_WritePixels_RLE := fun fp _ _ _ =>
    match fp with
    | none => -1
    | some _ => 0

/-! ### The integrator with the skip test of the specification -/

section SkipVariant

variable {α : Type} [LinearOrderedField α]

/-- The body of the innermost loop in the words of the specification: the input pixel is
skipped whenever `cosTerm <= 0`; everything else is as in `inputPixelStep`. -/
def inputPixelStepSkipLe (sin cos : α → α) (pi : α) (inImage : List α)
    (inWidth inHeight : Int) (outWidth : Int) (xOut yOut zOut : α) (j i l k : Nat)
    (outImage : List α) : List α :=
  let angTheta := (pi * ((l : α) + (1 / 2))) / (inHeight : α)
  let angPhi := (2 * pi * ((k : α) + (1 / 2))) / (inWidth : α)
  let xIn := sin angTheta * cos angPhi
  let yIn := sin angTheta * sin angPhi
  let zIn := cos angTheta
  let cosTerm := xOut * xIn + yOut * yIn + zOut * zIn
  if cosTerm ≤ 0 then
    outImage
  else
    let outImage := addAt outImage ((3 * (j : Int) * outWidth) + (3 * (i : Int)) + 0).toNat
      (inImage.getD ((3 * (l : Int) * inWidth) + (3 * (k : Int)) + 0).toNat 0 *
        cosTerm * sin angTheta * pi / (inHeight : α) * 2 * pi / (inWidth : α))
    let outImage := addAt outImage ((3 * (j : Int) * outWidth) + (3 * (i : Int)) + 1).toNat
      (inImage.getD ((3 * (l : Int) * inWidth) + (3 * (k : Int)) + 1).toNat 0 *
        cosTerm * sin angTheta * pi / (inHeight : α) * 2 * pi / (inWidth : α))
    addAt outImage ((3 * (j : Int) * outWidth) + (3 * (i : Int)) + 2).toNat
      (inImage.getD ((3 * (l : Int) * inWidth) + (3 * (k : Int)) + 2).toNat 0 *
        cosTerm * sin angTheta * pi / (inHeight : α) * 2 * pi / (inWidth : α))

/-- The loop nest of `integrate` with `inputPixelStepSkipLe` as the innermost body. -/
def integrateSkipLe (sin cos : α → α) (pi : α) (inImage : List α) (inWidth inHeight : Int)
    (outWidth outHeight : Int) (outImage : List α) : List α :=
  (List.range outHeight.toNat).foldl
    (fun out (j : Nat) =>
      (List.range outWidth.toNat).foldl
        (fun out (i : Nat) =>
          let angTheta := (pi * ((j : α) + (1 / 2))) / (outHeight : α)
          let angPhi := (2 * pi * ((i : α) + (1 / 2))) / (outWidth : α)
          let xOut := sin angTheta * cos angPhi
          let yOut := sin angTheta * sin angPhi
          let zOut := cos angTheta
          (List.range inHeight.toNat).foldl
            (fun out l =>
              (List.range inWidth.toNat).foldl
                (fun out k =>
                  inputPixelStepSkipLe sin cos pi inImage inWidth inHeight outWidth
                    xOut yOut zOut j i l k out)
                out)
            out)
        out)
    outImage

/-- The image `a * A + b * B`, channel by channel. -/
def combine (a b : α) (A B : List α) : List α :=
  List.zipWith (fun x y => a * x + b * y) A B

end SkipVariant

/-! ### The loop nest under `#pragma omp parallel for` -/

section Parallel

variable {α : Type} [LinearOrderedField α]

/-- The variables of `main` that are declared before the parallel loop and written inside
it (lines 79-83 and the output buffer). Declared outside the construct, they are shared by
all threads; the counters `j`, `i`, `l`, `k` belong to each thread. -/
structure Shared (α : Type) where
  angTheta : α
  angPhi : α
  xOut : α
  yOut : α
  zOut : α
  xIn : α
  yIn : α
  zIn : α
  omegaDot : α
  outImage : List α

/-- Lines 91-95 as run by the thread that works on output pixel `(j, i)`: five assignments
to shared variables. -/
def directionBlock (sin cos : α → α) (pi : α) (outWidth outHeight : Int) (j i : Nat)
    (s : Shared α) : Shared α :=
  let s := { s with angTheta := (pi * ((j : α) + (1 / 2))) / (outHeight : α) }
  let s := { s with angPhi := (2 * pi * ((i : α) + (1 / 2))) / (outWidth : α) }
  let s := { s with xOut := sin s.angTheta * cos s.angPhi }
  let s := { s with yOut := sin s.angTheta * sin s.angPhi }
  { s with zOut := cos s.angTheta }

/-- Lines 101-121 as run by the thread that works on output pixel `(j, i)`, for input pixel
`(l, k)`: every variable read or written is a shared one. -/
def inputBlock (sin cos : α → α) (pi : α) (inImage : List α) (inWidth inHeight : Int)
    (outWidth : Int) (j i l k : Nat) (s : Shared α) : Shared α :=
  let s := { s with angTheta := (pi * ((l : α) + (1 / 2))) / (inHeight : α) }
  let s := { s with angPhi := (2 * pi * ((k : α) + (1 / 2))) / (inWidth : α) }
  let s := { s with xIn := sin s.angTheta * cos s.angPhi }
  let s := { s with yIn := sin s.angTheta * sin s.angPhi }
  let s := { s with zIn := cos s.angTheta }
  let s := { s with omegaDot := s.xOut * s.xIn + s.yOut * s.yIn + s.zOut * s.zIn }
  if s.omegaDot < 0 then
    s
  else
    let s := { s with
      outImage :=
        addAt s.outImage ((3 * (j : Int) * outWidth) + (3 * (i : Int)) + 0).toNat
          (inImage.getD ((3 * (l : Int) * inWidth) + (3 * (k : Int)) + 0).toNat 0 *
            s.omegaDot * sin s.angTheta * pi / (inHeight : α) * 2 * pi / (inWidth : α)) }
    let s := { s with
      outImage :=
        addAt s.outImage ((3 * (j : Int) * outWidth) + (3 * (i : Int)) + 1).toNat
          (inImage.getD ((3 * (l : Int) * inWidth) + (3 * (k : Int)) + 1).toNat 0 *
            s.omegaDot * sin s.angTheta * pi / (inHeight : α) * 2 * pi / (inWidth : α)) }
    { s with
      outImage :=
        addAt s.outImage ((3 * (j : Int) * outWidth) + (3 * (i : Int)) + 2).toNat
          (inImage.getD ((3 * (l : Int) * inWidth) + (3 * (k : Int)) + 2).toNat 0 *
            s.omegaDot * sin s.angTheta * pi / (inHeight : α) * 2 * pi / (inWidth : α)) }

/-- The blocks a thread runs for output row `j` (one iteration of the parallel loop), in
program order. Each block is run here without interruption; an execution of the program
may interleave the threads more finely. -/
def rowBlocks (sin cos : α → α) (pi : α) (inImage : List α) (inWidth inHeight : Int)
    (outWidth outHeight : Int) (j : Nat) : List (Shared α → Shared α) :=
  ((List.range outWidth.toNat).map (fun i =>
    directionBlock sin cos pi outWidth outHeight j i ::
      ((List.range inHeight.toNat).map (fun l =>
        (List.range inWidth.toNat).map (fun k =>
          inputBlock sin cos pi inImage inWidth inHeight outWidth j i l k))).flatten)).flatten

/-- A schedule of two threads: `true` lets the first thread run its next block, `false`
the second; a thread that has no block left is passed over, and when the schedule ends the
first thread runs to its end before the second. -/
def interleave {β : Type} : List Bool → List β → List β → List β
  | _, [], ys => ys
  | _, x :: xs, [] => x :: xs
  | [], x :: xs, y :: ys => (x :: xs) ++ (y :: ys)
  | true :: cs, x :: xs, y :: ys => x :: interleave cs xs (y :: ys)
  | false :: cs, x :: xs, y :: ys => y :: interleave cs (x :: xs) ys

/-- Running a sequence of blocks on the shared variables. -/
def runBlocks (blocks : List (Shared α → Shared α)) (s : Shared α) : Shared α :=
  blocks.foldl (fun s b => b s) s

/-- The shared variables when the parallel loop starts, for an output buffer of `n` zeros
(the variables without initialiser are taken as zero). -/
def initialShared (n : Nat) : Shared α :=
  ⟨0, 0, 0, 0, 0, 0, 0, 0, 0, List.replicate n 0⟩

end Parallel

end FilterAseem

/-! ## The matrix library (`transform.cpp`)

The types `glm::mat4`, `glm::vec3` and their operations come from the library glm, which
is not among the sources: a matrix is the function from column and row to the entry
(`M c r` is `M[c][r]`), products are the products of glm, and the value of a
default-constructed matrix is a parameter of every function that starts from one.
-/

namespace Transform

/-- A `glm::mat4`, column first: `M c r` is the entry `M[c][r]`. -/
abbrev Mat4 (α : Type) : Type := Nat → Nat → α

/-- A `glm::vec4`. -/
@[ext]
structure Vec4 (α : Type) where
  x : α
  y : α
  z : α
  w : α

/-- A `glm::vec3`. -/
@[ext]
structure Vec3 (α : Type) where
  x : α
  y : α
  z : α

section Matrices

variable {α : Type} [LinearOrderedField α]

/-- The assignment `M[c][r] = v`. -/
def setEntry (M : Mat4 α) (c r : Nat) (v : α) : Mat4 α :=
  fun c' r' => if c' = c ∧ r' = r then v else M c' r'

/-- The identity matrix. -/
def identity : Mat4 α := fun c r => if c = r then 1 else 0

/-- Component `n` of a vector (`v[n]`). -/
def Vec4.get (v : Vec4 α) (n : Nat) : α :=
  match n with
  | 0 => v.x
  | 1 => v.y
  | 2 => v.z
  | _ => v.w

/-- The matrix with the four given columns (the constructor of `glm::mat4` from four
braced lists). -/
def ofColumns (c0 c1 c2 c3 : Vec4 α) : Mat4 α :=
  fun c r =>
    match c with
    | 0 => c0.get r
    | 1 => c1.get r
    | 2 => c2.get r
    | _ => c3.get r

/-- The product `M * v` of glm: the combination of the columns of `M` with the components
of `v`. -/
def mulVec (M : Mat4 α) (v : Vec4 α) : Vec4 α :=
  ⟨M 0 0 * v.x + M 1 0 * v.y + M 2 0 * v.z + M 3 0 * v.w,
   M 0 1 * v.x + M 1 1 * v.y + M 2 1 * v.z + M 3 1 * v.w,
   M 0 2 * v.x + M 1 2 * v.y + M 2 2 * v.z + M 3 2 * v.w,
   M 0 3 * v.x + M 1 3 * v.y + M 2 3 * v.z + M 3 3 * v.w⟩

/-- The product `A * B` of glm: column `c` of the product is `A` times column `c` of `B`. -/
def mulMat (A B : Mat4 α) : Mat4 α :=
  fun c r => A 0 r * B c 0 + A 1 r * B c 1 + A 2 r * B c 2 + A 3 r * B c 3

/-- The unit vector of coordinate `n` (`n = 3` is the homogeneous coordinate). -/
def unitVec (n : Nat) : Vec4 α :=
  ⟨if n = 0 then 1 else 0, if n = 1 then 1 else 0, if n = 2 then 1 else 0,
    if n = 3 then 1 else 0⟩

/-- The vector `a * u + b * v`. -/
def combo (a : α) (u : Vec4 α) (b : α) (v : Vec4 α) : Vec4 α :=
  ⟨a * u.x + b * v.x, a * u.y + b * v.y, a * u.z + b * v.z, a * u.w + b * v.w⟩

/-- The difference `u - v` of glm. -/
def Vec3.sub (u v : Vec3 α) : Vec3 α := ⟨u.x - v.x, u.y - v.y, u.z - v.z⟩

/-- The function `glm::dot`. -/
def dot (u v : Vec3 α) : α := u.x * v.x + u.y * v.y + u.z * v.z

/-- The function `glm::cross`. -/
def cross (u v : Vec3 α) : Vec3 α :=
  ⟨u.y * v.z - v.y * u.z, u.z * v.x - v.z * u.x, u.x * v.y - v.x * u.y⟩

/-- The function `glm::normalize`: `v * inversesqrt(dot(v, v))`. -/
def normalize (sqrt : α → α) (v : Vec3 α) : Vec3 α :=
  ⟨v.x * (1 / sqrt (dot v v)), v.y * (1 / sqrt (dot v v)), v.z * (1 / sqrt (dot v v))⟩

/-- The constant `const float pi = 3.14159f;` of `transform.cpp`, read as the decimal
written. -/
def pi : α := 3.14159

/-- The function `Rotate` (lines 25-41); `dflt` is the default-constructed matrix `R`. -/
def Rotate (dflt : Mat4 α) (sinf cosf : α → α) (i : Int) (theta : α) : Mat4 α :=
  let R := dflt
  let angRad := (theta * pi) / 180
  let j := (i + 1).tmod 3
  let k := (i + 2).tmod 3
  let R := setEntry R j.toNat j.toNat (cosf angRad)
  let R := setEntry R k.toNat k.toNat (cosf angRad)
  let R := setEntry R k.toNat j.toNat (-sinf angRad)
  let R := setEntry R j.toNat k.toNat (sinf angRad)
  R

/-- The function `Translate` (lines 55-65); `dflt` is the default-constructed matrix `T`. -/
def Translate (dflt : Mat4 α) (x y z : α) : Mat4 α :=
  let T := dflt
  let T := setEntry T 3 0 x
  let T := setEntry T 3 1 y
  let T := setEntry T 3 2 z
  T

/-- The function `Perspective` (lines 67-81); `dflt` is the default-constructed matrix
`P`. -/
def Perspective (dflt : Mat4 α) (rx ry front back : α) : Mat4 α :=
  let P := dflt
  let P := setEntry P 0 0 (1 / rx)
  let P := setEntry P 1 1 (1 / ry)
  let P := setEntry P 2 2 ((-1) * ((back + front) / (back - front)))
  let P := setEntry P 3 2 ((-1) * ((2 * front * back) / (back - front)))
  let P := setEntry P 2 3 (-1)
  let P := setEntry P 3 3 0
  P

/-- The function `LookAt` (lines 83-102); `dflt` is the default-constructed matrix inside
`Translate`. -/
def LookAt (dflt : Mat4 α) (sqrt : α → α) (Eye Center Up : Vec3 α) : Mat4 α :=
  let V := normalize sqrt (Center.sub Eye)
  let A := normalize sqrt (cross V Up)
  let B := cross A V
  let R := ofColumns ⟨A.x, B.x, -V.x, 0⟩ ⟨A.y, B.y, -V.y, 0⟩ ⟨A.z, B.z, -V.z, 0⟩ ⟨0, 0, 0, 1⟩
  let View := mulMat R (Translate dflt (-Eye.x) (-Eye.y) (-Eye.z))
  View

end Matrices

end Transform

/-! ## The colour conversion of `scene.cpp` -/

namespace Scene

section Colour

variable {α : Type} [LinearOrderedField α] [FloorRing α]

/-- The conversion `(int)x` of a floating-point value: truncation toward zero. -/
def truncate (x : α) : Int := if 0 ≤ x then ⌊x⌋ else ⌈x⌉

/-- The function `HSV2RGB` (lines 59-75). -/
def HSV2RGB (h s v : α) : α × α × α :=
  if s = 0 then
    (v, v, v)
  else
    let i : Int := (truncate (h * 6)).tmod 6
    let f := (h * 6) - (i : α)
    let p := v * (1 - s)
    let q := v * (1 - s * f)
    let t := v * (1 - s * (1 - f))
    if i = 0 then (v, t, p)
    else if i = 1 then (q, v, p)
    else if i = 2 then (p, v, t)
    else if i = 3 then (p, q, v)
    else if i = 4 then (t, p, v)
    else (v, p, q)

end Colour

end Scene

namespace FilterAseem

/-! ## Properties of the integrator -/

section Integrator

variable {α : Type} [LinearOrderedField α]

theorem adds_id : Adds (fun b : List α => b) (fun _ => 0) := by
  intro b
  exact ⟨rfl, fun m _ => by simp⟩

theorem adds_addAt (idx : Nat) (x : α) :
    Adds (fun b : List α => addAt b idx x) (fun m => if m = idx then x else 0) := by
  intro b
  refine ⟨by simp [addAt], fun m hm => ?_⟩
  by_cases h : m = idx
  · subst h
    simp [addAt, List.getD_eq_getElem?_getD, List.getElem?_set, hm]
  · have h2 : ¬ idx = m := fun e => h e.symm
    simp [addAt, List.getD_eq_getElem?_getD, List.getElem?_set, h, h2]

theorem adds_comp {f g : List α → List α} {c d : Nat → α} (hf : Adds f c) (hg : Adds g d) :
    Adds (fun b => g (f b)) (fun m => c m + d m) := by
  intro b
  obtain ⟨hl, hv⟩ := hf b
  obtain ⟨hl2, hv2⟩ := hg (f b)
  refine ⟨by rw [hl2, hl], fun m hm => ?_⟩
  rw [hv2 m (by rw [hl]; exact hm), hv m hm, add_assoc]

theorem adds_congr {f : List α → List α} {c d : Nat → α} (hf : Adds f c)
    (h : ∀ m, c m = d m) : Adds f d := by
  intro b
  obtain ⟨hl, hv⟩ := hf b
  exact ⟨hl, fun m hm => by rw [hv m hm, h m]⟩

theorem adds_foldl_range (step : Nat → List α → List α) (c : Nat → Nat → α)
    (h : ∀ t, Adds (step t) (c t)) (n : Nat) :
    Adds (fun b => (List.range n).foldl (fun out t => step t out) b)
      (fun m => ∑ t ∈ Finset.range n, c t m) := by
  induction n with
  | zero => exact adds_congr adds_id (fun m => by simp)
  | succ n ih =>
    have := adds_comp ih (h n)
    intro b
    obtain ⟨hl, hv⟩ := this b
    refine ⟨?_, fun m hm => ?_⟩
    · simpa [List.range_succ, List.foldl_append] using hl
    · have := hv m hm
      simp only [List.range_succ, List.foldl_append, List.foldl_cons, List.foldl_nil,
        Finset.sum_range_succ]
      exact this

theorem adds_inputPixelStep (sin cos : α → α) (pi : α) (inImage : List α)
    (inWidth inHeight outWidth : Int) (xOut yOut zOut : α) (j i l k : Nat) :
    Adds (inputPixelStep sin cos pi inImage inWidth inHeight outWidth xOut yOut zOut j i l k)
      (stepDelta sin cos pi inImage inWidth inHeight outWidth xOut yOut zOut j i l k) := by
  unfold inputPixelStep stepDelta
  simp only []
  split_ifs with h
  · exact adds_id
  · exact adds_comp (adds_comp (adds_addAt _ _) (adds_addAt _ _)) (adds_addAt _ _)

theorem adds_accumulatePixel (sin cos : α → α) (pi : α) (inImage : List α)
    (inWidth inHeight outWidth : Int) (xOut yOut zOut : α) (j i : Nat) :
    Adds (accumulatePixel sin cos pi inImage inWidth inHeight outWidth xOut yOut zOut j i)
      (fun m => ∑ l ∈ Finset.range inHeight.toNat, ∑ k ∈ Finset.range inWidth.toNat,
        stepDelta sin cos pi inImage inWidth inHeight outWidth xOut yOut zOut j i l k m) := by
  unfold accumulatePixel
  exact adds_foldl_range _ _
    (fun l => adds_foldl_range _ _ (fun k => adds_inputPixelStep sin cos pi inImage inWidth
      inHeight outWidth xOut yOut zOut j i l k) _) _

/-- The output-pixel step is the accumulation run with the direction of lines 91-95. -/
theorem outputPixelStep_eq (sin cos : α → α) (pi : α) (inImage : List α)
    (inWidth inHeight outWidth outHeight : Int) (j i : Nat) (out : List α) :
    outputPixelStep sin cos pi inImage inWidth inHeight outWidth outHeight j i out =
      accumulatePixel sin cos pi inImage inWidth inHeight outWidth
        (outDirection sin cos pi outWidth outHeight j i).1
        (outDirection sin cos pi outWidth outHeight j i).2.1
        (outDirection sin cos pi outWidth outHeight j i).2.2 j i out := rfl

/-- The test of line 108 is a test on the dot product of the output direction with the
direction of lines 101-105. -/
theorem inputPixelStep_skip (sin cos : α → α) (pi : α) (inImage : List α)
    (inWidth inHeight outWidth : Int) (xOut yOut zOut : α) (j i l k : Nat) (out : List α)
    (h : omegaDot (xOut, yOut, zOut) (inDirection sin cos pi inWidth inHeight l k) < 0) :
    inputPixelStep sin cos pi inImage inWidth inHeight outWidth xOut yOut zOut j i l k out =
      out := by
  unfold omegaDot inDirection at h
  unfold inputPixelStep
  exact if_pos h

/-- What the whole work for output pixel `(j, i)` adds to entry `m`. -/
theorem adds_outputPixelStep (sin cos : α → α) (pi : α) (inImage : List α)
    (inWidth inHeight outWidth outHeight : Int) (j i : Nat) :
    Adds (outputPixelStep sin cos pi inImage inWidth inHeight outWidth outHeight j i)
      (fun m => ∑ l ∈ Finset.range inHeight.toNat, ∑ k ∈ Finset.range inWidth.toNat,
        stepDelta sin cos pi inImage inWidth inHeight outWidth
          (outDirection sin cos pi outWidth outHeight j i).1
          (outDirection sin cos pi outWidth outHeight j i).2.1
          (outDirection sin cos pi outWidth outHeight j i).2.2 j i l k m) :=
  adds_accumulatePixel sin cos pi inImage inWidth inHeight outWidth _ _ _ j i

theorem adds_integrate (sin cos : α → α) (pi : α) (inImage : List α)
    (inWidth inHeight outWidth outHeight : Int) :
    Adds (integrate sin cos pi inImage inWidth inHeight outWidth outHeight)
      (fun m => ∑ j ∈ Finset.range outHeight.toNat, ∑ i ∈ Finset.range outWidth.toNat,
        ∑ l ∈ Finset.range inHeight.toNat, ∑ k ∈ Finset.range inWidth.toNat,
          stepDelta sin cos pi inImage inWidth inHeight outWidth
            (outDirection sin cos pi outWidth outHeight j i).1
            (outDirection sin cos pi outWidth outHeight j i).2.1
            (outDirection sin cos pi outWidth outHeight j i).2.2 j i l k m) := by
  unfold integrate
  exact adds_foldl_range _ _
    (fun j => adds_foldl_range _ _ (fun i => adds_outputPixelStep sin cos pi inImage inWidth
      inHeight outWidth outHeight j i) _) _

/-! ### Index arithmetic -/

theorem getD_replicate_of_lt {β : Type} (n m : ℕ) (a d : β) (h : m < n) :
    (List.replicate n a).getD m d = a := by
  simp [List.getD_eq_getElem?_getD, List.getElem?_replicate, h]

theorem toNat_index (a b W c : ℕ) :
    ((3 * (a : Int) * (W : Int)) + (3 * (b : Int)) + (c : Int)).toNat = 3 * (a * W + b) + c := by
  have h : (3 * (a : Int) * W + 3 * b + c) = ((3 * (a * W + b) + c : ℕ) : Int) := by
    push_cast; ring
  rw [h, Int.toNat_natCast]

theorem toNat_index0 (a b W : ℕ) :
    ((3 * (a : Int) * (W : Int)) + (3 * (b : Int)) + 0).toNat = 3 * (a * W + b) + 0 := by
  simpa using toNat_index a b W 0

theorem toNat_index1 (a b W : ℕ) :
    ((3 * (a : Int) * (W : Int)) + (3 * (b : Int)) + 1).toNat = 3 * (a * W + b) + 1 := by
  simpa using toNat_index a b W 1

theorem toNat_index2 (a b W : ℕ) :
    ((3 * (a : Int) * (W : Int)) + (3 * (b : Int)) + 2).toNat = 3 * (a * W + b) + 2 := by
  simpa using toNat_index a b W 2

/-- The flat index determines row, column and channel. -/
theorem index_injective {j i j' i' W ch ch' : ℕ} (hi : i < W) (hi' : i' < W) (hc : ch < 3)
    (hc' : ch' < 3) (h : 3 * (j * W + i) + ch = 3 * (j' * W + i') + ch') :
    j = j' ∧ i = i' ∧ ch = ch' := by
  have h1 : ch = ch' := by omega
  have h2 : j * W + i = j' * W + i' := by omega
  have hW : 0 < W := by omega
  have h3 : j = j' := by
    have a := congrArg (· / W) h2
    simp only [] at a
    rw [Nat.add_comm, Nat.add_mul_div_right _ _ hW, Nat.div_eq_of_lt hi,
      Nat.add_comm (j' * W), Nat.add_mul_div_right _ _ hW, Nat.div_eq_of_lt hi'] at a
    omega
  subst h3
  exact ⟨rfl, by omega, h1⟩

theorem index_lt {j i W H ch : ℕ} (hi : i < W) (hj : j < H) (hc : ch < 3) :
    3 * (j * W + i) + ch < 3 * W * H := by
  have h1 : j * W + i < H * W := by
    calc j * W + i < j * W + W := by omega
      _ = (j + 1) * W := by ring
      _ ≤ H * W := Nat.mul_le_mul_right W hj
  have h2 : 3 * W * H = 3 * (H * W) := by ring
  omega

/-- The step of another output pixel, or of another channel, adds nothing to an entry. -/
theorem stepDelta_other (sin cos : α → α) (pi : α) (inImage : List α) (inWidth inHeight : Int)
    (outW : ℕ) (x y z : α) {j i j' i' ch : ℕ} (l k : ℕ) (hi : i < outW) (hi' : i' < outW)
    (hc : ch < 3) (hne : ¬ (j' = j ∧ i' = i)) :
    stepDelta sin cos pi inImage inWidth inHeight (outW : Int) x y z j' i' l k
      (3 * (j * outW + i) + ch) = 0 := by
  unfold stepDelta
  simp only [toNat_index0, toNat_index1, toNat_index2]
  have e0 : ¬ (3 * (j * outW + i) + ch = 3 * (j' * outW + i') + 0) := fun e =>
    hne (by obtain ⟨a, b, _⟩ := index_injective hi hi' hc (by omega) e; exact ⟨a.symm, b.symm⟩)
  have e1 : ¬ (3 * (j * outW + i) + ch = 3 * (j' * outW + i') + 1) := fun e =>
    hne (by obtain ⟨a, b, _⟩ := index_injective hi hi' hc (by omega) e; exact ⟨a.symm, b.symm⟩)
  have e2 : ¬ (3 * (j * outW + i) + ch = 3 * (j' * outW + i') + 2) := fun e =>
    hne (by obtain ⟨a, b, _⟩ := index_injective hi hi' hc (by omega) e; exact ⟨a.symm, b.symm⟩)
  rw [if_neg e0, if_neg e1, if_neg e2]
  split_ifs <;> simp

/-- The step of output pixel `(j, i)` adds the increment of channel `ch` to the entry of
that channel, unless the dot product is negative. -/
theorem stepDelta_self (sin cos : α → α) (pi : α) (inImage : List α) (inW inH outW : ℕ)
    (x y z : α) (j i l k : ℕ) {ch : ℕ} (hc : ch < 3) :
    stepDelta sin cos pi inImage (inW : Int) (inH : Int) (outW : Int) x y z j i l k
      (3 * (j * outW + i) + ch) =
      if omegaDot (x, y, z) (inDirection sin cos pi inW inH l k) < 0 then 0
      else inImage.getD (3 * (l * inW + k) + ch) 0 *
        omegaDot (x, y, z) (inDirection sin cos pi inW inH l k) *
        sin ((pi * ((l : α) + (1 / 2))) / ((inH : Int) : α)) * pi / ((inH : Int) : α) * 2 * pi /
          ((inW : Int) : α) := by
  unfold stepDelta omegaDot inDirection
  simp only [toNat_index0, toNat_index1, toNat_index2]
  interval_cases ch <;> split_ifs <;> first | rfl | (exfalso; omega) | simp

/-! ### The two direction computations against the specification's mapping -/

theorem outDirection_spec (sin cos : α → α) (pi : α) (r c H W : ℕ) :
    outDirection sin cos pi (W : Int) (H : Int) r c = specDirection sin cos pi r c H W := by
  have h : (1 / 2 : α) = 0.5 := by norm_num
  simp only [outDirection, specDirection, specTheta, specPhi, Int.cast_natCast, h]

theorem inDirection_spec (sin cos : α → α) (pi : α) (r c H W : ℕ) :
    inDirection sin cos pi (W : Int) (H : Int) r c = specDirection sin cos pi r c H W := by
  have h : (1 / 2 : α) = 0.5 := by norm_num
  simp only [inDirection, specDirection, specTheta, specPhi, Int.cast_natCast, h]

/-! ### The value left in one output entry -/

/-- Entry `3 * (j * outW + i) + ch` after the whole loop nest: its initial value plus the
increments of the input pixels whose dot product with the direction of `(j, i)` is not
negative. -/
theorem integrate_entry (sin cos : α → α) (pi : α) (inImage : List α) (inW inH outW outH : ℕ)
    (out : List α) (hlen : out.length = 3 * outW * outH) {j i ch : ℕ} (hi : i < outW)
    (hj : j < outH) (hc : ch < 3) :
    (integrate sin cos pi inImage inW inH outW outH out).getD (3 * (j * outW + i) + ch) 0 =
      out.getD (3 * (j * outW + i) + ch) 0 +
      ∑ l ∈ Finset.range inH, ∑ k ∈ Finset.range inW,
        if omegaDot (outDirection sin cos pi outW outH j i)
            (inDirection sin cos pi inW inH l k) < 0 then 0
        else inImage.getD (3 * (l * inW + k) + ch) 0 *
          omegaDot (outDirection sin cos pi outW outH j i) (inDirection sin cos pi inW inH l k) *
          sin ((pi * ((l : α) + (1 / 2))) / ((inH : Int) : α)) * pi / ((inH : Int) : α) * 2 * pi /
            ((inW : Int) : α) := by
  have hm : 3 * (j * outW + i) + ch < out.length := by
    rw [hlen]; exact index_lt hi hj hc
  rw [(adds_integrate sin cos pi inImage inW inH outW outH out).2 _ hm]
  congr 1
  simp only [Int.toNat_natCast]
  rw [Finset.sum_eq_single_of_mem j (Finset.mem_range.2 hj)]
  · rw [Finset.sum_eq_single_of_mem i (Finset.mem_range.2 hi)]
    · refine Finset.sum_congr rfl (fun l _ => Finset.sum_congr rfl (fun k _ => ?_))
      exact stepDelta_self sin cos pi inImage inW inH outW _ _ _ j i l k hc
    · intro i' hi' hne
      refine Finset.sum_eq_zero (fun l _ => Finset.sum_eq_zero (fun k _ => ?_))
      exact stepDelta_other sin cos pi inImage inW inH outW _ _ _ l k hi
        (Finset.mem_range.1 hi') hc (fun e => hne e.2)
  · intro j' _ hne
    refine Finset.sum_eq_zero (fun i' hi' => Finset.sum_eq_zero (fun l _ =>
      Finset.sum_eq_zero (fun k _ => ?_)))
    exact stepDelta_other sin cos pi inImage inW inH outW _ _ _ l k hi
      (Finset.mem_range.1 hi') hc (fun e => hne e.1)

/-- Entry `3 * (j * outW + i) + ch` after the two loops over the input pixels, run for output
pixel `(j, i)` with direction `(x, y, z)`. -/
theorem accumulatePixel_entry (sin cos : α → α) (pi : α) (inImage : List α) (inW inH outW : ℕ)
    (x y z : α) (out : List α) (j i : ℕ) {ch : ℕ} (hc : ch < 3)
    (hm : 3 * (j * outW + i) + ch < out.length) :
    (accumulatePixel sin cos pi inImage inW inH outW x y z j i out).getD
        (3 * (j * outW + i) + ch) 0 =
      out.getD (3 * (j * outW + i) + ch) 0 +
      ∑ l ∈ Finset.range inH, ∑ k ∈ Finset.range inW,
        if omegaDot (x, y, z) (inDirection sin cos pi inW inH l k) < 0 then 0
        else inImage.getD (3 * (l * inW + k) + ch) 0 *
          omegaDot (x, y, z) (inDirection sin cos pi inW inH l k) *
          sin ((pi * ((l : α) + (1 / 2))) / ((inH : Int) : α)) * pi / ((inH : Int) : α) * 2 * pi /
            ((inW : Int) : α) := by
  rw [(adds_accumulatePixel sin cos pi inImage inW inH outW x y z j i out).2 _ hm]
  congr 1
  simp only [Int.toNat_natCast]
  refine Finset.sum_congr rfl (fun l _ => Finset.sum_congr rfl (fun k _ => ?_))
  exact stepDelta_self sin cos pi inImage inW inH outW _ _ _ j i l k hc

theorem foldl_keep {β γ : Type} (xs : List γ) (b : β) :
    xs.foldl (fun out _ => out) b = b := by
  induction xs with
  | nil => rfl
  | cons x xs ih =>
    simp only [List.foldl_cons]
    exact ih

/-- Without input pixels the two inner loops leave the buffer as it is. -/
theorem accumulatePixel_of_empty_input (sin cos : α → α) (pi : α) (inImage : List α)
    (inWidth inHeight outWidth : Int) (x y z : α) (j i : ℕ) (out : List α)
    (h : inWidth ≤ 0 ∨ inHeight ≤ 0) :
    accumulatePixel sin cos pi inImage inWidth inHeight outWidth x y z j i out = out := by
  unfold accumulatePixel
  rcases h with h | h
  · rw [Int.toNat_of_nonpos h]
    simp only [List.range_zero, List.foldl_nil]
    exact foldl_keep _ _
  · rw [Int.toNat_of_nonpos h]
    rfl

/-- Without input pixels the whole loop nest leaves the buffer as it is. -/
theorem integrate_of_empty_input (sin cos : α → α) (pi : α) (inImage : List α)
    (inWidth inHeight outWidth outHeight : Int) (out : List α)
    (h : inWidth ≤ 0 ∨ inHeight ≤ 0) :
    integrate sin cos pi inImage inWidth inHeight outWidth outHeight out = out := by
  unfold integrate
  simp only [outputPixelStep, accumulatePixel_of_empty_input sin cos pi inImage inWidth
    inHeight outWidth _ _ _ _ _ _ h]
  simp only [foldl_keep]

/-- The sum of `integrate_entry` is the reference double sum of the specification. -/
theorem increments_eq_referenceSum (sin cos : α → α) (pi : α) (inImage : List α)
    (inW inH outW outH : ℕ) (j i ch : ℕ) :
    (∑ l ∈ Finset.range inH, ∑ k ∈ Finset.range inW,
        if omegaDot (outDirection sin cos pi outW outH j i)
            (inDirection sin cos pi inW inH l k) < 0 then 0
        else inImage.getD (3 * (l * inW + k) + ch) 0 *
          omegaDot (outDirection sin cos pi outW outH j i) (inDirection sin cos pi inW inH l k) *
          sin ((pi * ((l : α) + (1 / 2))) / ((inH : Int) : α)) * pi / ((inH : Int) : α) * 2 * pi /
            ((inW : Int) : α)) =
      referenceSum sin cos pi inImage inW inH outW outH j i ch := by
  unfold referenceSum specCosTerm specInput
  refine Finset.sum_congr rfl (fun l _ => Finset.sum_congr rfl (fun k _ => ?_))
  rw [outDirection_spec, inDirection_spec]
  have h : (1 / 2 : α) = 0.5 := by norm_num
  simp only [specTheta, Int.cast_natCast, h]
  split_ifs with h1 h2 h2
  · exact absurd h2 (not_le.2 h1)
  · rfl
  · ring
  · exact absurd (not_lt.1 h1) h2

end Integrator

/-! ### A constant environment seen from the direction `(0, 0, 1)` -/

theorem sin_odd_mul_sin (a x : ℝ) :
    Real.sin (2 * a + x) * Real.sin x = Real.sin (a + x) ^ 2 - Real.sin a ^ 2 := by
  rw [Real.sin_add, Real.sin_add, Real.sin_two_mul, Real.cos_two_mul]
  have h1 := Real.sin_sq_add_cos_sq a
  have h2 := Real.sin_sq_add_cos_sq x
  linear_combination (Real.sin x) ^ 2 * h1 - (Real.sin a) ^ 2 * h2

theorem sum_sin_odd (x : ℝ) (n : ℕ) :
    (∑ l ∈ Finset.range n, Real.sin ((2 * (l : ℝ) + 1) * x)) * Real.sin x =
      Real.sin ((n : ℝ) * x) ^ 2 := by
  induction n with
  | zero => simp
  | succ n ih =>
    rw [Finset.sum_range_succ, add_mul, ih]
    have h := sin_odd_mul_sin ((n : ℝ) * x) x
    have e1 : (2 * (n : ℝ) + 1) * x = 2 * ((n : ℝ) * x) + x := by ring
    have e2 : ((n + 1 : ℕ) : ℝ) * x = (n : ℝ) * x + x := by push_cast; ring
    rw [e1, e2, h]; ring

/-- With `T` the sum of `sin ((2 l + 1) p / 32)` over the 16 rows of the upper hemisphere,
`p * (p / 32) * T` is within 5% of the circle constant when `p` is the constant of `main`. -/
theorem closure_bound (p T : ℝ) (hp : p = 3.141592)
    (hT : T * Real.sin (p / 32) = Real.sin (p / 2) ^ 2) :
    |p * (p / 32) * T - Real.pi| ≤ 0.05 * Real.pi := by
  have hpi1 := Real.pi_gt_d6
  have hpi2 := Real.pi_lt_d6
  have hx0 : 0 < p / 32 := by rw [hp]; norm_num
  have hx1 : p / 32 ≤ 1 := by rw [hp]; norm_num
  have hs_lt : Real.sin (p / 32) < p / 32 := Real.sin_lt hx0
  have hs_gt : p / 32 - (p / 32) ^ 3 / 4 < Real.sin (p / 32) := Real.sin_gt_sub_cube hx0 hx1
  have hs_pos : 0 < Real.sin (p / 32) := by
    refine lt_trans ?_ hs_gt
    rw [hp]; norm_num
  have hs99 : 0.99 * (p / 32) ≤ Real.sin (p / 32) := by
    refine le_trans ?_ hs_gt.le
    rw [hp]; norm_num
  have hc : Real.sin (p / 2) = Real.cos (Real.pi / 2 - p / 2) := by
    rw [Real.cos_pi_div_two_sub]
  have hc2 : 1 - (Real.pi / 2 - p / 2) ^ 2 / 2 ≤ Real.sin (p / 2) := by
    rw [hc]; exact Real.one_sub_sq_div_two_le_cos
  have hd : (Real.pi / 2 - p / 2) ^ 2 ≤ 0.01 := by
    have a1 : 0 ≤ Real.pi / 2 - p / 2 := by rw [hp]; linarith
    have a2 : Real.pi / 2 - p / 2 ≤ 0.1 := by rw [hp]; linarith
    nlinarith
  have hsin_ge : 0.99 ≤ Real.sin (p / 2) := by linarith
  have hsin_le : Real.sin (p / 2) ≤ 1 := Real.sin_le_one _
  have hsq_le : Real.sin (p / 2) ^ 2 ≤ 1 := by nlinarith
  have hsq_ge : 0.98 ≤ Real.sin (p / 2) ^ 2 := by nlinarith
  have hT0 : 0 ≤ T := by
    by_contra h
    push_neg at h
    have : T * Real.sin (p / 32) < 0 := mul_neg_of_neg_of_pos h hs_pos
    nlinarith
  have hup : T * (0.99 * (p / 32)) ≤ 1 := by
    calc T * (0.99 * (p / 32)) ≤ T * Real.sin (p / 32) := mul_le_mul_of_nonneg_left hs99 hT0
      _ = Real.sin (p / 2) ^ 2 := hT
      _ ≤ 1 := hsq_le
  have hlo : 0.98 ≤ T * (p / 32) := by
    calc (0.98 : ℝ) ≤ Real.sin (p / 2) ^ 2 := hsq_ge
      _ = T * Real.sin (p / 32) := hT.symm
      _ ≤ T * (p / 32) := mul_le_mul_of_nonneg_left hs_lt.le hT0
  have hppos : (0 : ℝ) < p := by rw [hp]; norm_num
  rw [abs_le]
  constructor
  · have : p * 0.98 ≤ p * (p / 32) * T := by
      have := mul_le_mul_of_nonneg_left hlo hppos.le
      linarith
    rw [hp] at this ⊢
    linarith
  · have : p * (p / 32) * T * 0.99 ≤ p := by
      have := mul_le_mul_of_nonneg_left hup hppos.le
      linarith
    rw [hp] at this ⊢
    linarith

/-- Sign of `cos` at the polar angle of input row `l` of a raster with 32 rows. -/
theorem cos_row_sign (p : ℝ) (hp : p = 3.141592) (l : ℕ) (hl : l < 32) :
    (l < 16 → 0 ≤ Real.cos (p * ((l : ℝ) + 1 / 2) / 32)) ∧
    (16 ≤ l → Real.cos (p * ((l : ℝ) + 1 / 2) / 32) < 0) := by
  have hpi1 := Real.pi_gt_d6
  have hpi2 := Real.pi_lt_d6
  have hl0 : (0 : ℝ) ≤ (l : ℝ) := Nat.cast_nonneg l
  constructor
  · intro h
    have hl1 : (l : ℝ) ≤ 15 := by exact_mod_cast Nat.lt_succ_iff.1 h
    refine (Real.cos_pos_of_mem_Ioo ⟨?_, ?_⟩).le
    · rw [hp]; linarith
    · rw [hp]; linarith
  · intro h
    have hl1 : (16 : ℝ) ≤ (l : ℝ) := by exact_mod_cast h
    have hl2 : (l : ℝ) ≤ 31 := by exact_mod_cast Nat.lt_succ_iff.1 hl
    refine Real.cos_neg_of_pi_div_two_lt_of_lt ?_ ?_
    · rw [hp]; linarith
    · rw [hp]; linarith

/-- The increment of input pixel `(l, k)` of the constant 64x32 image for the direction
`(0, 0, 1)`: rows of the upper hemisphere add `p * (p / 32) * sin (2 theta) / 64`, the other
rows are skipped. -/
theorem uniform_term (p : ℝ) (hp : p = 3.141592) (l k ch : ℕ) (hl : l < 32) (hk : k < 64)
    (hc : ch < 3) :
    (if omegaDot ((0 : ℝ), (0 : ℝ), (1 : ℝ))
          (inDirection Real.sin Real.cos p ((64 : ℕ) : Int) ((32 : ℕ) : Int) l k) < 0 then 0
      else (List.replicate (3 * 64 * 32) (1 : ℝ)).getD (3 * (l * 64 + k) + ch) 0 *
        omegaDot ((0 : ℝ), (0 : ℝ), (1 : ℝ))
          (inDirection Real.sin Real.cos p ((64 : ℕ) : Int) ((32 : ℕ) : Int) l k) *
        Real.sin ((p * ((l : ℝ) + (1 / 2))) / (((32 : ℕ) : Int) : ℝ)) * p /
          (((32 : ℕ) : Int) : ℝ) * 2 * p / (((64 : ℕ) : Int) : ℝ)) =
      if l < 16 then p * (p / 32) * Real.sin ((2 * (l : ℝ) + 1) * (p / 32)) / 64 else 0 := by
  have hdot : omegaDot ((0 : ℝ), (0 : ℝ), (1 : ℝ))
      (inDirection Real.sin Real.cos p ((64 : ℕ) : Int) ((32 : ℕ) : Int) l k) =
      Real.cos (p * ((l : ℝ) + 1 / 2) / 32) := by
    simp [omegaDot, inDirection]
  have hget : (List.replicate (3 * 64 * 32) (1 : ℝ)).getD (3 * (l * 64 + k) + ch) 0 = 1 := by
    exact getD_replicate_of_lt _ _ _ _ (by omega)
  have h32 : (((32 : ℕ) : Int) : ℝ) = 32 := by norm_num
  have h64 : (((64 : ℕ) : Int) : ℝ) = 64 := by norm_num
  rw [hdot, hget, h32, h64]
  obtain ⟨hlow, hhigh⟩ := cos_row_sign p hp l hl
  by_cases h : l < 16
  · rw [if_neg (not_lt.2 (hlow h)), if_pos h]
    have e : (2 * (l : ℝ) + 1) * (p / 32) = 2 * (p * ((l : ℝ) + 1 / 2) / 32) := by ring
    rw [e, Real.sin_two_mul]
    ring
  · rw [if_pos (hhigh (not_lt.1 h)), if_neg h]

/-- The value the two inner loops accumulate for the constant 64x32 image and the direction
`(0, 0, 1)`, in closed form. -/
theorem accumulate_uniform (p : ℝ) (hp : p = 3.141592) (ch : ℕ) (hc : ch < 3) :
    (accumulatePixel Real.sin Real.cos p (List.replicate (3 * 64 * 32) 1)
        ((64 : ℕ) : Int) ((32 : ℕ) : Int) ((1 : ℕ) : Int) 0 0 1 0 0 [0, 0, 0]).getD ch 0 =
      p * (p / 32) * ∑ l ∈ Finset.range 16, Real.sin ((2 * (l : ℝ) + 1) * (p / 32)) := by
  have h := accumulatePixel_entry Real.sin Real.cos p (List.replicate (3 * 64 * 32) 1) 64 32 1
    0 0 1 [0, 0, 0] 0 0 hc (by simp only [List.length_cons, List.length_nil]; omega)
  have hidx : 3 * (0 * 1 + 0) + ch = ch := by omega
  rw [hidx] at h
  rw [h]
  have h0 : ([0, 0, 0] : List ℝ).getD ch 0 = 0 := by
    interval_cases ch <;> rfl
  rw [h0, zero_add]
  have hsum : ∀ l ∈ Finset.range 32, (∑ k ∈ Finset.range 64,
      (if omegaDot ((0 : ℝ), (0 : ℝ), (1 : ℝ))
          (inDirection Real.sin Real.cos p ((64 : ℕ) : Int) ((32 : ℕ) : Int) l k) < 0 then 0
      else (List.replicate (3 * 64 * 32) (1 : ℝ)).getD (3 * (l * 64 + k) + ch) 0 *
        omegaDot ((0 : ℝ), (0 : ℝ), (1 : ℝ))
          (inDirection Real.sin Real.cos p ((64 : ℕ) : Int) ((32 : ℕ) : Int) l k) *
        Real.sin ((p * ((l : ℝ) + (1 / 2))) / (((32 : ℕ) : Int) : ℝ)) * p /
          (((32 : ℕ) : Int) : ℝ) * 2 * p / (((64 : ℕ) : Int) : ℝ))) =
      if l < 16 then p * (p / 32) * Real.sin ((2 * (l : ℝ) + 1) * (p / 32)) else 0 := by
    intro l hl
    rw [Finset.sum_congr rfl (fun k hk => uniform_term p hp l k ch (Finset.mem_range.1 hl)
      (Finset.mem_range.1 hk) hc)]
    rw [Finset.sum_const, Finset.card_range, nsmul_eq_mul]
    split_ifs
    · push_cast; ring
    · simp
  rw [Finset.sum_congr rfl hsum, show (32 : ℕ) = 16 + 16 from rfl, Finset.sum_range_add]
  have hA : ∀ l ∈ Finset.range 16,
      (if l < 16 then p * (p / 32) * Real.sin ((2 * (l : ℝ) + 1) * (p / 32)) else 0) =
      p * (p / 32) * Real.sin ((2 * (l : ℝ) + 1) * (p / 32)) :=
    fun l hl => if_pos (Finset.mem_range.1 hl)
  have hB : ∀ l ∈ Finset.range 16,
      (if 16 + l < 16 then
        p * (p / 32) * Real.sin ((2 * ((16 + l : ℕ) : ℝ) + 1) * (p / 32)) else 0) = 0 :=
    fun l _ => if_neg (by omega)
  rw [Finset.sum_congr rfl hA, Finset.sum_eq_zero hB, add_zero, Finset.mul_sum]

/-! ## The claims about the integrator -/

/-- C1: for every input image and every output pixel (column `i`, row `j`) of an
`outW x outH` output that starts at zero, the value the loop nest leaves in channel `ch` of
that pixel is the reference double sum over the input pixels whose `cosTerm` is not
negative, with no normalisation afterwards (arithmetic over the reals). -/
theorem integrate_eq_referenceSum (pi : ℝ) (inImage : List ℝ) (inW inH outW outH : ℕ)
    (j i ch : ℕ) (hi : i < outW) (hj : j < outH) (hc : ch < 3) :
    (integrate Real.sin Real.cos pi inImage inW inH outW outH
        (List.replicate (3 * outW * outH) 0)).getD (3 * (j * outW + i) + ch) 0 =
      referenceSum Real.sin Real.cos pi inImage inW inH outW outH j i ch := by
  rw [integrate_entry Real.sin Real.cos pi inImage inW inH outW outH _ (by simp) hi hj hc,
    increments_eq_referenceSum]
  simp [List.getD_eq_getElem?_getD, List.getElem?_replicate, index_lt hi hj hc]

/-- Witness for C1: a 4x2 input with a 2x1 output, pixel (0, 0), red channel. -/
theorem integrate_eq_referenceSum_witness :
    (integrate Real.sin Real.cos (pi : ℝ)
        [1, 2, 3, 4, 5, 6, 7, 8, 9, 10, 11, 12, 13, 14, 15, 16, 17, 18, 19, 20, 21, 22, 23, 24]
        ((4 : ℕ) : Int) ((2 : ℕ) : Int) ((2 : ℕ) : Int) ((1 : ℕ) : Int)
        (List.replicate (3 * 2 * 1) 0)).getD (3 * (0 * 2 + 0) + 0) 0 =
      referenceSum Real.sin Real.cos (pi : ℝ)
        [1, 2, 3, 4, 5, 6, 7, 8, 9, 10, 11, 12, 13, 14, 15, 16, 17, 18, 19, 20, 21, 22, 23, 24]
        4 2 2 1 0 0 0 :=
  integrate_eq_referenceSum pi _ 4 2 2 1 0 0 0 (by decide) (by decide) (by decide)

/-- C2: the direction computed for an output pixel and the direction computed for an input
pixel at row `r`, column `c` of a raster with `H` rows and `W` columns are both
`(sin theta * cos phi, sin theta * sin phi, cos theta)` with `theta = pi * (r + 0.5) / H`
and `phi = 2 * pi * (c + 0.5) / W`: one mapping for input and output. -/
theorem direction_mapping (pi : ℝ) (r c H W : ℕ) :
    outDirection Real.sin Real.cos pi W H r c =
        (Real.sin (pi * ((r : ℝ) + 0.5) / H) * Real.cos (2 * pi * ((c : ℝ) + 0.5) / W),
         Real.sin (pi * ((r : ℝ) + 0.5) / H) * Real.sin (2 * pi * ((c : ℝ) + 0.5) / W),
         Real.cos (pi * ((r : ℝ) + 0.5) / H)) ∧
    inDirection Real.sin Real.cos pi W H r c =
        (Real.sin (pi * ((r : ℝ) + 0.5) / H) * Real.cos (2 * pi * ((c : ℝ) + 0.5) / W),
         Real.sin (pi * ((r : ℝ) + 0.5) / H) * Real.sin (2 * pi * ((c : ℝ) + 0.5) / W),
         Real.cos (pi * ((r : ℝ) + 0.5) / H)) ∧
    outDirection Real.sin Real.cos pi W H r c = inDirection Real.sin Real.cos pi W H r c := by
  refine ⟨?_, ?_, ?_⟩
  · rw [outDirection_spec]; rfl
  · rw [inDirection_spec]; rfl
  · rw [outDirection_spec, inDirection_spec]

/-- C3: the direction vector computed for any pixel of any raster, for output and for input
pixels alike, has Euclidean norm 1 over the reals. -/
theorem direction_norm_one (pi : ℝ) (r c : ℕ) (W H : Int) :
    (outDirection Real.sin Real.cos pi W H r c).1 ^ 2 +
        (outDirection Real.sin Real.cos pi W H r c).2.1 ^ 2 +
        (outDirection Real.sin Real.cos pi W H r c).2.2 ^ 2 = 1 ∧
    (inDirection Real.sin Real.cos pi W H r c).1 ^ 2 +
        (inDirection Real.sin Real.cos pi W H r c).2.1 ^ 2 +
        (inDirection Real.sin Real.cos pi W H r c).2.2 ^ 2 = 1 := by
  have key : ∀ t p : ℝ, (Real.sin t * Real.cos p) ^ 2 + (Real.sin t * Real.sin p) ^ 2 +
      Real.cos t ^ 2 = 1 := by
    intro t p
    have h1 := Real.sin_sq_add_cos_sq t
    have h2 := Real.sin_sq_add_cos_sq p
    calc (Real.sin t * Real.cos p) ^ 2 + (Real.sin t * Real.sin p) ^ 2 + Real.cos t ^ 2
        = Real.sin t ^ 2 * (Real.sin p ^ 2 + Real.cos p ^ 2) + Real.cos t ^ 2 := by ring
      _ = 1 := by rw [h2, mul_one, h1]
  exact ⟨key _ _, key _ _⟩

/-- C4: hemisphere culling. If the dot product of the direction of output pixel `(j, i)`
with the direction of every input pixel is at most zero, then the three accumulators of that
output pixel are exactly zero after integration, whatever the channel values of the input. -/
theorem hemisphere_culling (pi : ℝ) (inImage : List ℝ) (inW inH outW outH : ℕ) (j i ch : ℕ)
    (hi : i < outW) (hj : j < outH) (hc : ch < 3)
    (hcull : ∀ l, l < inH → ∀ k, k < inW →
      omegaDot (outDirection Real.sin Real.cos pi outW outH j i)
        (inDirection Real.sin Real.cos pi inW inH l k) ≤ 0) :
    (integrate Real.sin Real.cos pi inImage inW inH outW outH
        (List.replicate (3 * outW * outH) 0)).getD (3 * (j * outW + i) + ch) 0 = 0 := by
  rw [integrate_entry Real.sin Real.cos pi inImage inW inH outW outH _ (by simp) hi hj hc]
  have h0 : (List.replicate (3 * outW * outH) (0 : ℝ)).getD (3 * (j * outW + i) + ch) 0 = 0 := by
    simp [List.getD_eq_getElem?_getD, List.getElem?_replicate, index_lt hi hj hc]
  rw [h0, zero_add]
  refine Finset.sum_eq_zero (fun l hl => Finset.sum_eq_zero (fun k hk => ?_))
  have hle := hcull l (Finset.mem_range.1 hl) k (Finset.mem_range.1 hk)
  split_ifs with h
  · rfl
  · have hz : omegaDot (outDirection Real.sin Real.cos pi outW outH j i)
        (inDirection Real.sin Real.cos pi inW inH l k) = 0 := le_antisymm hle (not_lt.1 h)
    rw [hz]
    simp

/-- Witness for C4: a 1x1 input whose only direction is `(-1, 0, 0)` and the output pixel
(0, 0) of a 4x1 output, whose direction is `(√2 / 2, √2 / 2, 0)`. -/
theorem hemisphere_culling_witness :
    (integrate Real.sin Real.cos Real.pi [1, 2, 3] ((1 : ℕ) : Int) ((1 : ℕ) : Int)
        ((4 : ℕ) : Int) ((1 : ℕ) : Int)
        (List.replicate (3 * 4 * 1) 0)).getD (3 * (0 * 4 + 0) + 0) 0 = 0 := by
  refine hemisphere_culling Real.pi [1, 2, 3] 1 1 4 1 0 0 0 (by decide) (by decide)
    (by decide) ?_
  intro l hl k hk
  obtain rfl : l = 0 := by omega
  obtain rfl : k = 0 := by omega
  have e1 : Real.pi * (((0 : ℕ) : ℝ) + 1 / 2) / (((1 : ℕ) : ℤ) : ℝ) = Real.pi / 2 := by
    push_cast; ring
  have e2 : 2 * Real.pi * (((0 : ℕ) : ℝ) + 1 / 2) / (((4 : ℕ) : ℤ) : ℝ) = Real.pi / 4 := by
    push_cast; ring
  have e3 : 2 * Real.pi * (((0 : ℕ) : ℝ) + 1 / 2) / (((1 : ℕ) : ℤ) : ℝ) = Real.pi := by
    push_cast; ring
  simp only [omegaDot, outDirection, inDirection, e1, e2, e3, Real.sin_pi_div_two,
    Real.cos_pi_div_two, Real.cos_pi_div_four, Real.sin_pi_div_four, Real.cos_pi, Real.sin_pi]
  have hs : (0 : ℝ) ≤ √2 := Real.sqrt_nonneg 2
  linarith

/-- C5: uniform-environment closure. For the 64x32 input image whose every channel value
is 1 and the output direction `(0, 0, 1)`, the value the two inner loops accumulate in each
of the three channels, starting from zero, is within 5% relative error of the circle
constant. -/
theorem uniform_environment_closure (ch : Fin 3) :
    |(accumulatePixel Real.sin Real.cos (pi : ℝ) (List.replicate (3 * 64 * 32) 1)
        64 32 1 0 0 1 0 0 [0, 0, 0]).getD (ch : ℕ) 0 - Real.pi| ≤ 0.05 * Real.pi := by
  have hp : (pi : ℝ) = 3.141592 := rfl
  have h := accumulate_uniform (pi : ℝ) hp (ch : ℕ) ch.isLt
  have h32 : ((32 : ℕ) : Int) = 32 := rfl
  have h64 : ((64 : ℕ) : Int) = 64 := rfl
  have h1 : ((1 : ℕ) : Int) = 1 := rfl
  rw [h32, h64, h1] at h
  rw [h]
  refine closure_bound (pi : ℝ) _ hp ?_
  have hs := sum_sin_odd ((pi : ℝ) / 32) 16
  rw [hs]
  congr 2
  push_cast
  ring

/-! ## The claims about the file name, the codec adapters and `main` -/

/-- C6: for every input path of length at least 4 (a `std::string`, so shorter than 2^64),
the output path is the input path without its last 4 characters, followed by the 15
characters `-irradiance.hdr`; its length is the input length plus 11 and it ends in
`-irradiance.hdr`. -/
theorem outName_spec (inName : List Char) (h4 : 4 ≤ inName.length)
    (hsize : inName.length < 2 ^ 64) :
    outName inName = inName.take (inName.length - 4) ++ "-irradiance.hdr".toList ∧
    "-irradiance.hdr".toList.length = 15 ∧
    (outName inName).length = inName.length + 11 ∧
    (outName inName).drop (inName.length - 4) = "-irradiance.hdr".toList := by
  have hcount : (inName.length + 2 ^ 64 - 4) % 2 ^ 64 = inName.length - 4 := by
    have e : inName.length + 2 ^ 64 - 4 = (inName.length - 4) + 2 ^ 64 := by omega
    rw [e, Nat.add_mod_right, Nat.mod_eq_of_lt (by omega)]
  have hname : outName inName =
      inName.take (inName.length - 4) ++ "-irradiance.hdr".toList := by
    unfold outName substr
    rw [hcount, List.drop_zero]
  have hlen : (inName.take (inName.length - 4)).length = inName.length - 4 := by
    rw [List.length_take]; omega
  refine ⟨hname, rfl, ?_, ?_⟩
  · rw [hname, List.length_append, hlen]
    have : "-irradiance.hdr".toList.length = 15 := rfl
    omega
  · rw [hname, List.drop_append_of_le_length (by rw [hlen]), List.drop_of_length_le (by rw [hlen]),
      List.nil_append]

/-- Witness for C6: the path `scene.hdr`. -/
theorem outName_spec_witness :
    outName "scene.hdr".toList = ("scene.hdr".toList).take (9 - 4) ++ "-irradiance.hdr".toList ∧
    "-irradiance.hdr".toList.length = 15 ∧
    (outName "scene.hdr".toList).length = 9 + 11 ∧
    (outName "scene.hdr".toList).drop (9 - 4) = "-irradiance.hdr".toList :=
  outName_spec "scene.hdr".toList (by decide) (by decide)

/-- C7: shape invariant of `read`. Whenever `read` returns, the buffer it hands back has
length exactly `3 * width * height` for the width and height it reports. -/
theorem read_shape {α : Type} [Zero α] (R : Rgbe α) (inName : List Char) (image : List α)
    (tr : List (Event α)) (img : List α) (width height : Int)
    (h : read R inName image = ⟨tr, Outcome.returned (img, width, height)⟩) :
    (img.length : Int) = 3 * width * height := by
  unfold read at h
  split at h
  · simp at h
  · rename_i fp _
    simp only [] at h
    split_ifs at h with h1 h2 h3 h4
    all_goals try (simp at h; done)
    simp only [Run.mk.injEq, Outcome.returned.injEq, Prod.mk.injEq] at h
    obtain ⟨_, himg, hw, hh⟩ := h
    rw [← himg, ← hw, ← hh]
    have hn : 0 ≤ 3 * (R.RGBE_ReadHeader fp).2.1 * (R.RGBE_ReadHeader fp).2.2 := not_lt.1 h3
    rw [List.length_mapIdx]
    unfold resize
    rw [List.length_append, List.length_take, List.length_replicate]
    omega

/-- Witness for C7: a library that reports a 2x1 image and stores six floats. -/
theorem read_shape_witness :
    ((([1, 2, 3, 4, 5, 6] : List ℚ).length : ℕ) : Int) = 3 * 2 * 1 :=
  read_shape (sampleCodec ℚ) "scene.hdr".toList []
    [Event.fclose (some 3), Event.printf Message.readDone] [1, 2, 3, 4, 5, 6] 2 1
    (by simp [read, sampleCodec, fitsInt, resize]; norm_num)

/-- C8, as stated, fails: the library reports the width -1 and the height -1 and every call
succeeds; `read` hands these dimensions to `main`, which does not fail: it runs the loop
nest, writes the header and the all-zero 200x100 image, and ends with status 0. -/
theorem negative_dimension_not_rejected :
    read (negativeDimCodec ℝ) "env.hdr".toList [] =
      ⟨[Event.fclose (some 3), Event.printf Message.readDone],
        Outcome.returned ([0, 0, 0], -1, -1)⟩ ∧
    main Real.sin Real.cos (negativeDimCodec ℝ) "env.hdr".toList =
      ⟨[Event.fclose (some 3), Event.printf Message.readDone,
          Event.writeHeader (some 3) 200 100,
          Event.writePixels (some 3) (List.replicate 60000 0) 200 100,
          Event.fclose (some 3), Event.printf Message.wroteDone],
        Outcome.returned 0⟩ := by
  have hread : read (negativeDimCodec ℝ) "env.hdr".toList [] =
      ⟨[Event.fclose (some 3), Event.printf Message.readDone],
        Outcome.returned ([0, 0, 0], -1, -1)⟩ := by
    simp [read, negativeDimCodec, fitsInt, resize, List.replicate]
  refine ⟨hread, ?_⟩
  unfold main
  simp only [hread]
  rw [integrate_of_empty_input _ _ _ _ _ _ _ _ _ (Or.inl (by norm_num))]
  have h6 : (3 * (200 : Int) * 100).toNat = 60000 := rfl
  rw [h6]
  generalize List.replicate 60000 (0 : ℝ) = img
  simp [write, negativeDimCodec, Outcome.as]

/-- C8, amended: no dimension is validated. The output dimensions are the constants 200
and 100; when `read` reports an input width or height that is zero or negative, the loops
over the input pixels run no iteration, every output value stays 0, and `main` goes on to
`write` with the all-zero 200x100 image: its events are those of `read` followed by those
of `write`, and it ends as `write` ends. -/
theorem nonpositive_input_dimension (R : Rgbe ℝ) (argv1 : List Char) (tr : List (Event ℝ))
    (inImage : List ℝ) (inWidth inHeight : Int)
    (hread : read R argv1 [] = ⟨tr, Outcome.returned (inImage, inWidth, inHeight)⟩)
    (hdim : inWidth ≤ 0 ∨ inHeight ≤ 0) :
    integrate Real.sin Real.cos pi inImage inWidth inHeight 200 100
        (List.replicate 60000 0) = List.replicate 60000 0 ∧
    main Real.sin Real.cos R argv1 =
      ⟨tr ++ (write R (outName argv1) (List.replicate 60000 0) 200 100).trace,
        (write R (outName argv1) (List.replicate 60000 0) 200 100).outcome.as 0⟩ := by
  refine ⟨integrate_of_empty_input _ _ _ _ _ _ _ _ _ hdim, ?_⟩
  unfold main
  simp only [hread]
  rw [integrate_of_empty_input _ _ _ _ _ _ _ _ _ hdim]
  have h6 : (3 * (200 : Int) * 100).toNat = 60000 := rfl
  rw [h6]

/-- Witness for the amended C8: the library that reports the width -1 and the height -1. -/
theorem nonpositive_input_dimension_witness :
    integrate Real.sin Real.cos pi [0, 0, 0] (-1) (-1) 200 100
        (List.replicate 60000 0) = List.replicate 60000 0 ∧
    main Real.sin Real.cos (negativeDimCodec ℝ) "env.hdr".toList =
      ⟨[Event.fclose (some 3), Event.printf Message.readDone] ++
          (write (negativeDimCodec ℝ) (outName "env.hdr".toList)
            (List.replicate 60000 0) 200 100).trace,
        (write (negativeDimCodec ℝ) (outName "env.hdr".toList)
            (List.replicate 60000 0) 200 100).outcome.as 0⟩ :=
  nonpositive_input_dimension (negativeDimCodec ℝ) "env.hdr".toList
    [Event.fclose (some 3), Event.printf Message.readDone] [0, 0, 0] (-1) (-1)
    (by simp [read, negativeDimCodec, fitsInt, resize, List.replicate]) (Or.inl (by norm_num))

/-- C9, as stated, fails: a buffer of length 4 with width 1 and height 1 (where
`3 * width * height` is 3) is written, header and pixels, and `write` returns. -/
theorem write_accepts_wrong_length :
    ([1, 2, 3, 4] : List ℚ).length ≠ 3 * 1 * 1 ∧
    write (sampleCodec ℚ) "out.hdr".toList [1, 2, 3, 4] 1 1 =
      ⟨[Event.writeHeader (some 3) 1 1, Event.writePixels (some 3) [1, 2, 3, 4] 1 1,
          Event.fclose (some 3), Event.printf Message.wroteDone],
        Outcome.returned ()⟩ := by
  refine ⟨by decide, ?_⟩
  simp [write, sampleCodec]

/-- C9, amended: `write` does not look at the length of the buffer. For every buffer,
width and height its first event is the header write with that width and height; it
returns exactly when both calls of the library report success, and otherwise it ends with
`exit(-1)`. -/
theorem write_no_length_check {α : Type} (R : Rgbe α) (outName : List Char) (image : List α)
    (width height : Int) :
    (write R outName image width height).trace.head? =
      some (Event.writeHeader (R.fopen outName Mode.wb) width height) ∧
    ((write R outName image width height).outcome = Outcome.returned () ↔
      (R.RGBE_WriteHeader (R.fopen outName Mode.wb) width height = R.RGBE_RETURN_SUCCESS ∧
        R.RGBE_WritePixels_RLE (R.fopen outName Mode.wb) image width height =
          R.RGBE_RETURN_SUCCESS)) ∧
    ((write R outName image width height).outcome = Outcome.returned () ∨
      (write R outName image width height).outcome = Outcome.exited (-1)) := by
  unfold write
  simp only []
  split_ifs with h1 h2
  · simp [h1]
  · simp only [not_not] at h1
    simp [h1, h2]
  · simp only [not_not] at h1 h2
    simp [h1, h2]

/-- C10, at a destination that cannot be opened: `write` does not test the stream that
`fopen` returns; its first event is the header write on the null stream, and only the
failure reported by that call ends the program. -/
theorem write_null_stream :
    (unwritableCodec ℚ).fopen "out.hdr".toList Mode.wb = none ∧
    write (unwritableCodec ℚ) "out.hdr".toList [0, 0, 0] 1 1 =
      ⟨[Event.writeHeader none 1 1, Event.printf Message.rgbeWriteError],
        Outcome.exited (-1)⟩ := by
  refine ⟨rfl, ?_⟩
  simp [write, unwritableCodec]

/-! ## Further claims about the integrator -/

section MoreIntegrator

variable {α : Type} [LinearOrderedField α]

theorem set_getD_self (buf : List α) (idx : ℕ) : buf.set idx (buf.getD idx 0) = buf := by
  apply List.ext_getElem?
  intro n
  rw [List.getElem?_set]
  split_ifs with h1 h2
  · subst h1
    rw [List.getD_eq_getElem?_getD, List.getElem?_eq_getElem h2]
    rfl
  · subst h1
    exact (List.getElem?_eq_none (not_lt.1 h2)).symm
  · rfl

theorem addAt_zero (buf : List α) (idx : ℕ) : addAt buf idx 0 = buf := by
  unfold addAt
  rw [add_zero, set_getD_self]

/-- An input pixel whose dot product is exactly zero adds a zero term: the two bodies of
the innermost loop agree. -/
theorem inputPixelStep_eq_skipLe (sin cos : α → α) (pi : α) (inImage : List α)
    (inWidth inHeight outWidth : Int) (xOut yOut zOut : α) (j i l k : ℕ) (out : List α) :
    inputPixelStep sin cos pi inImage inWidth inHeight outWidth xOut yOut zOut j i l k out =
      inputPixelStepSkipLe sin cos pi inImage inWidth inHeight outWidth xOut yOut zOut
        j i l k out := by
  unfold inputPixelStep inputPixelStepSkipLe
  simp only []
  split_ifs with h1 h2 h2
  · rfl
  · exact absurd h1.le h2
  · have h0 : xOut * (sin (pi * ((l : α) + 1 / 2) / (inHeight : α)) *
          cos (2 * pi * ((k : α) + 1 / 2) / (inWidth : α))) +
        yOut * (sin (pi * ((l : α) + 1 / 2) / (inHeight : α)) *
          sin (2 * pi * ((k : α) + 1 / 2) / (inWidth : α))) +
        zOut * cos (pi * ((l : α) + 1 / 2) / (inHeight : α)) = 0 :=
      le_antisymm h2 (not_lt.1 h1)
    simp only [h0, mul_zero, zero_mul, zero_div, addAt_zero]
  · rfl

theorem integrate_eq_integrateSkipLe (sin cos : α → α) (pi : α) (inImage : List α)
    (inWidth inHeight outWidth outHeight : Int) (out : List α) :
    integrate sin cos pi inImage inWidth inHeight outWidth outHeight out =
      integrateSkipLe sin cos pi inImage inWidth inHeight outWidth outHeight out := by
  unfold integrate integrateSkipLe outputPixelStep accumulatePixel
  simp only [inputPixelStep_eq_skipLe]

theorem adds_foldl_list {γ : Type} (step : γ → List α → List α) (c : γ → ℕ → α)
    (h : ∀ t, Adds (step t) (c t)) (xs : List γ) :
    Adds (fun b => xs.foldl (fun out t => step t out) b)
      (fun m => (xs.map (fun t => c t m)).sum) := by
  induction xs with
  | nil => exact adds_congr adds_id (fun m => by simp)
  | cons x xs ih =>
    refine adds_congr (adds_comp (h x) ih) (fun m => ?_)
    simp only [List.map_cons, List.sum_cons]

/-- An entry that is none of the three entries of output pixel `(j, i)` receives nothing
from the steps of that pixel. -/
theorem stepDelta_of_ne (sin cos : α → α) (pi : α) (inImage : List α) (inWidth inHeight : Int)
    (outW : ℕ) (x y z : α) (j i l k m : ℕ)
    (hm : ∀ ch, ch < 3 → m ≠ 3 * (j * outW + i) + ch) :
    stepDelta sin cos pi inImage inWidth inHeight (outW : Int) x y z j i l k m = 0 := by
  unfold stepDelta
  simp only [toNat_index0, toNat_index1, toNat_index2]
  rw [if_neg (hm 0 (by omega)), if_neg (hm 1 (by omega)), if_neg (hm 2 (by omega))]
  split_ifs <;> simp

/-- What the work for output pixel `(j, i)` adds to an entry, as a function of the entry. -/
theorem outputPixelStep_frame (sin cos : α → α) (pi : α) (inImage : List α)
    (inWidth inHeight : Int) (outW : ℕ) (outHeight : Int) (j i : ℕ) (out : List α) (m : ℕ)
    (hm : ∀ ch, ch < 3 → m ≠ 3 * (j * outW + i) + ch) :
    (outputPixelStep sin cos pi inImage inWidth inHeight outW outHeight j i out).getD m 0 =
      out.getD m 0 := by
  have hA := adds_outputPixelStep sin cos pi inImage inWidth inHeight outW outHeight j i out
  by_cases h : m < out.length
  · rw [hA.2 m h]
    beta_reduce
    have hz : (∑ l ∈ Finset.range inHeight.toNat, ∑ k ∈ Finset.range inWidth.toNat,
        stepDelta sin cos pi inImage inWidth inHeight (outW : Int)
          (outDirection sin cos pi outW outHeight j i).1
          (outDirection sin cos pi outW outHeight j i).2.1
          (outDirection sin cos pi outW outHeight j i).2.2 j i l k m) = 0 :=
      Finset.sum_eq_zero (fun l _ => Finset.sum_eq_zero (fun k _ =>
        stepDelta_of_ne sin cos pi inImage inWidth inHeight outW _ _ _ j i l k m hm))
    rw [hz, add_zero]
  · rw [List.getD_eq_getElem?_getD, List.getD_eq_getElem?_getD,
      List.getElem?_eq_none (by rw [hA.1]; exact not_lt.1 h),
      List.getElem?_eq_none (not_lt.1 h)]

/-- The entries of output pixel `(j, i)` after the work for any sequence of output pixels
in which `(j, i)` occurs once: the other pixels of the sequence add nothing to them. -/
theorem foldl_pixels_entry (sin cos : α → α) (pi : α) (inImage : List α)
    (inWidth inHeight : Int) (outW : ℕ) (outHeight : Int) (j i ch : ℕ) (hi : i < outW)
    (hc : ch < 3) (before after : List (ℕ × ℕ))
    (hq : ∀ q ∈ before ++ after, q.2 < outW ∧ q ≠ (j, i)) (out : List α)
    (hm : 3 * (j * outW + i) + ch < out.length) :
    ((before ++ (j, i) :: after).foldl
        (fun b q => outputPixelStep sin cos pi inImage inWidth inHeight outW outHeight
          q.1 q.2 b) out).getD (3 * (j * outW + i) + ch) 0 =
      (outputPixelStep sin cos pi inImage inWidth inHeight outW outHeight j i out).getD
        (3 * (j * outW + i) + ch) 0 := by
  have hA := adds_foldl_list
    (fun (q : ℕ × ℕ) => outputPixelStep sin cos pi inImage inWidth inHeight outW outHeight
      q.1 q.2) _
    (fun q => adds_outputPixelStep sin cos pi inImage inWidth inHeight outW outHeight q.1 q.2)
    (before ++ (j, i) :: after) out
  rw [hA.2 _ hm,
    (adds_outputPixelStep sin cos pi inImage inWidth inHeight outW outHeight j i out).2 _ hm]
  beta_reduce
  congr 1
  have hzero : ∀ q : ℕ × ℕ, q.2 < outW → q ≠ (j, i) →
      (∑ l ∈ Finset.range inHeight.toNat, ∑ k ∈ Finset.range inWidth.toNat,
        stepDelta sin cos pi inImage inWidth inHeight (outW : Int)
          (outDirection sin cos pi outW outHeight q.1 q.2).1
          (outDirection sin cos pi outW outHeight q.1 q.2).2.1
          (outDirection sin cos pi outW outHeight q.1 q.2).2.2 q.1 q.2 l k
          (3 * (j * outW + i) + ch)) = 0 := by
    intro q hq2 hne
    refine Finset.sum_eq_zero (fun l _ => Finset.sum_eq_zero (fun k _ => ?_))
    exact stepDelta_other sin cos pi inImage inWidth inHeight outW _ _ _ l k hi hq2 hc
      (fun e => hne (Prod.ext e.1 e.2))
  rw [List.map_append, List.sum_append, List.map_cons, List.sum_cons]
  have hb : (List.map (fun (q : ℕ × ℕ) =>
      ∑ l ∈ Finset.range inHeight.toNat, ∑ k ∈ Finset.range inWidth.toNat,
        stepDelta sin cos pi inImage inWidth inHeight (outW : Int)
          (outDirection sin cos pi outW outHeight q.1 q.2).1
          (outDirection sin cos pi outW outHeight q.1 q.2).2.1
          (outDirection sin cos pi outW outHeight q.1 q.2).2.2 q.1 q.2 l k
          (3 * (j * outW + i) + ch)) before).sum = 0 := by
    apply List.sum_eq_zero
    intro x hx
    obtain ⟨q, hqb, rfl⟩ := List.mem_map.1 hx
    exact hzero q (hq q (List.mem_append_left _ hqb)).1 (hq q (List.mem_append_left _ hqb)).2
  have ha : (List.map (fun (q : ℕ × ℕ) =>
      ∑ l ∈ Finset.range inHeight.toNat, ∑ k ∈ Finset.range inWidth.toNat,
        stepDelta sin cos pi inImage inWidth inHeight (outW : Int)
          (outDirection sin cos pi outW outHeight q.1 q.2).1
          (outDirection sin cos pi outW outHeight q.1 q.2).2.1
          (outDirection sin cos pi outW outHeight q.1 q.2).2.2 q.1 q.2 l k
          (3 * (j * outW + i) + ch)) after).sum = 0 := by
    apply List.sum_eq_zero
    intro x hx
    obtain ⟨q, hqa, rfl⟩ := List.mem_map.1 hx
    exact hzero q (hq q (List.mem_append_right _ hqa)).1 (hq q (List.mem_append_right _ hqa)).2
  rw [hb, ha, zero_add, add_zero]

theorem getD_nonneg (xs : List α) (h : ∀ x ∈ xs, 0 ≤ x) (n : ℕ) : 0 ≤ xs.getD n 0 := by
  rw [List.getD_eq_getElem?_getD]
  by_cases hn : n < xs.length
  · rw [List.getElem?_eq_getElem hn]
    exact h _ (List.getElem_mem hn)
  · rw [List.getElem?_eq_none (not_lt.1 hn)]
    exact le_rfl

theorem increment_nonneg {a d s p H W : α} (ha : 0 ≤ a) (hd : 0 ≤ d) (hs : 0 ≤ s) (hp : 0 ≤ p)
    (hH : 0 ≤ H) (hW : 0 ≤ W) : 0 ≤ a * d * s * p / H * 2 * p / W := by
  positivity

/-- The increments are not negative when the channel values, the constant `pi` and the sine
of the polar angle of the input row are not negative. -/
theorem stepDelta_nonneg (sin cos : α → α) (pi : α) (inImage : List α) (inW inH : ℕ)
    (outWidth : Int) (x y z : α) (j i l k m : ℕ) (hin : ∀ v ∈ inImage, 0 ≤ v) (hpi : 0 ≤ pi)
    (hsin : 0 ≤ sin ((pi * ((l : α) + (1 / 2))) / ((inH : Int) : α))) :
    0 ≤ stepDelta sin cos pi inImage (inW : Int) (inH : Int) outWidth x y z j i l k m := by
  unfold stepDelta
  simp only []
  have hH : (0 : α) ≤ ((inH : Int) : α) := by simp
  have hW : (0 : α) ≤ ((inW : Int) : α) := by simp
  split_ifs with h <;> first
    | exact le_rfl
    | (have hd := not_lt.1 h
       have t0 := increment_nonneg (getD_nonneg inImage hin
         ((3 * (l : Int) * (inW : Int)) + (3 * (k : Int)) + 0).toNat) hd hsin hpi hH hW
       have t1 := increment_nonneg (getD_nonneg inImage hin
         ((3 * (l : Int) * (inW : Int)) + (3 * (k : Int)) + 1).toNat) hd hsin hpi hH hW
       have t2 := increment_nonneg (getD_nonneg inImage hin
         ((3 * (l : Int) * (inW : Int)) + (3 * (k : Int)) + 2).toNat) hd hsin hpi hH hW
       linarith)

theorem getD_combine (a b : α) (A B : List α) (h : A.length = B.length) (n : ℕ) :
    (combine a b A B).getD n 0 = a * A.getD n 0 + b * B.getD n 0 := by
  unfold combine
  simp only [List.getD_eq_getElem?_getD, List.getElem?_zipWith]
  by_cases hn : n < A.length
  · have hn2 : n < B.length := h ▸ hn
    simp [List.getElem?_eq_getElem hn, List.getElem?_eq_getElem hn2]
  · have hn2 : ¬ n < B.length := h ▸ hn
    simp [List.getElem?_eq_none (not_lt.1 hn), List.getElem?_eq_none (not_lt.1 hn2)]

end MoreIntegrator

/-- The sine of the polar angle of every input row is not negative for the constant `pi`
of `main`. -/
theorem sin_row_nonneg (inH l : ℕ) (hl : l < inH) :
    0 ≤ Real.sin (((pi : ℝ) * ((l : ℝ) + (1 / 2))) / ((inH : Int) : ℝ)) := by
  have hp : (pi : ℝ) = 3.141592 := rfl
  have hpi := Real.pi_gt_d6
  have hH : (0 : ℝ) < (inH : ℝ) := by exact_mod_cast (by omega : 0 < inH)
  have hl1 : (l : ℝ) + 1 ≤ (inH : ℝ) := by exact_mod_cast hl
  have hl0 : (0 : ℝ) ≤ (l : ℝ) := Nat.cast_nonneg l
  have hcast : ((inH : Int) : ℝ) = (inH : ℝ) := by simp
  rw [hcast, hp]
  apply Real.sin_nonneg_of_nonneg_of_le_pi
  · positivity
  · rw [div_le_iff₀ hH]
    nlinarith

/-- Every entry of the buffer the loop nest leaves, started on zeros, is not negative when
the channel values of the input are not negative. -/
theorem integrate_getD_nonneg (inImage : List ℝ) (hin : ∀ v ∈ inImage, 0 ≤ v)
    (inW inH : ℕ) (outWidth outHeight : Int) (n m : ℕ) :
    0 ≤ (integrate Real.sin Real.cos (pi : ℝ) inImage inW inH outWidth outHeight
      (List.replicate n 0)).getD m 0 := by
  have hA := adds_integrate Real.sin Real.cos (pi : ℝ) inImage inW inH outWidth outHeight
    (List.replicate n 0)
  by_cases hm : m < (List.replicate n (0 : ℝ)).length
  · rw [hA.2 m hm, getD_replicate_of_lt n m 0 0 (by simpa using hm), zero_add]
    refine Finset.sum_nonneg (fun j _ => Finset.sum_nonneg (fun i _ =>
      Finset.sum_nonneg (fun l hl => Finset.sum_nonneg (fun k _ => ?_))))
    have hl2 : l < inH := by simpa using hl
    exact stepDelta_nonneg Real.sin Real.cos pi inImage inW inH outWidth _ _ _ j i l k m hin
      (by norm_num [pi]) (sin_row_nonneg inH l hl2)
  · rw [List.getD_eq_getElem?_getD, List.getElem?_eq_none (by rw [hA.1]; exact not_lt.1 hm)]
    exact le_rfl

/-- C12: non-negativity of the irradiance map. For every input image all of whose channel
values are non-negative and every output resolution, the value the loop nest computes from
zeros for every channel `ch` of every output pixel (column `i`, row `j`) is non-negative
(over the reals, with the constant `pi` of `main`). -/
theorem irradiance_nonneg (inImage : List ℝ) (inW inH outW outH : ℕ) (j i ch : ℕ)
    (hin : ∀ v ∈ inImage, 0 ≤ v) (_hi : i < outW) (_hj : j < outH) (_hc : ch < 3) :
    0 ≤ (integrate Real.sin Real.cos (pi : ℝ) inImage inW inH outW outH
      (List.replicate (3 * outW * outH) 0)).getD (3 * (j * outW + i) + ch) 0 :=
  integrate_getD_nonneg inImage hin inW inH outW outH (3 * outW * outH) _

/-- Witness for C12: a 1x1 input with the channel values 1, 2, 3 and the red channel of
pixel (0, 0) of a 2x1 output. -/
theorem irradiance_nonneg_witness :
    0 ≤ (integrate Real.sin Real.cos (pi : ℝ) [1, 2, 3] ((1 : ℕ) : Int) ((1 : ℕ) : Int)
      ((2 : ℕ) : Int) ((1 : ℕ) : Int) (List.replicate (3 * 2 * 1) 0)).getD
        (3 * (0 * 2 + 0) + 0) 0 :=
  irradiance_nonneg [1, 2, 3] 1 1 2 1 0 0 0 (by
    intro v hv
    simp only [List.mem_cons, List.mem_singleton, List.not_mem_nil, or_false] at hv
    rcases hv with rfl | rfl | rfl <;> norm_num) (by decide) (by decide) (by decide)

/-- C14: skip-threshold equivalence. For every input image, every output buffer and all
dimensions, the loop nest as written (an input pixel is skipped only when the dot product
is negative) leaves the same buffer as the variant that skips whenever the dot product is
at most zero. -/
theorem skip_threshold_equivalence (pi : ℝ) (inImage : List ℝ)
    (inWidth inHeight outWidth outHeight : Int) (outImage : List ℝ) :
    integrate Real.sin Real.cos pi inImage inWidth inHeight outWidth outHeight outImage =
      integrateSkipLe Real.sin Real.cos pi inImage inWidth inHeight outWidth outHeight
        outImage :=
  integrate_eq_integrateSkipLe Real.sin Real.cos pi inImage inWidth inHeight outWidth
    outHeight outImage

/-! ### The parallel loop -/

theorem runBlocks_append {α : Type} (xs ys : List (Shared α → Shared α)) (s : Shared α) :
    runBlocks (xs ++ ys) s = runBlocks ys (runBlocks xs s) := by
  unfold runBlocks
  rw [List.foldl_append]

theorem runBlocks_cons {α : Type} (b : Shared α → Shared α)
    (bs : List (Shared α → Shared α)) (s : Shared α) :
    runBlocks (b :: bs) s = runBlocks bs (b s) := rfl

section ParallelLemmas

variable {α : Type} [LinearOrderedField α]

/-- The direction block stores the direction of lines 91-95 in the shared variables and
leaves the output buffer as it is. -/
theorem directionBlock_spec (sin cos : α → α) (pi : α) (outWidth outHeight : Int) (j i : ℕ)
    (s : Shared α) :
    (directionBlock sin cos pi outWidth outHeight j i s).outImage = s.outImage ∧
    (directionBlock sin cos pi outWidth outHeight j i s).xOut =
      (outDirection sin cos pi outWidth outHeight j i).1 ∧
    (directionBlock sin cos pi outWidth outHeight j i s).yOut =
      (outDirection sin cos pi outWidth outHeight j i).2.1 ∧
    (directionBlock sin cos pi outWidth outHeight j i s).zOut =
      (outDirection sin cos pi outWidth outHeight j i).2.2 :=
  ⟨rfl, rfl, rfl, rfl⟩

/-- The input block does to the output buffer what the body of the innermost loop does
with the output direction that is in the shared variables at that moment; it leaves that
direction as it is. -/
theorem inputBlock_spec (sin cos : α → α) (pi : α) (inImage : List α)
    (inWidth inHeight outWidth : Int) (j i l k : ℕ) (s : Shared α) :
    (inputBlock sin cos pi inImage inWidth inHeight outWidth j i l k s).outImage =
      inputPixelStep sin cos pi inImage inWidth inHeight outWidth s.xOut s.yOut s.zOut
        j i l k s.outImage ∧
    (inputBlock sin cos pi inImage inWidth inHeight outWidth j i l k s).xOut = s.xOut ∧
    (inputBlock sin cos pi inImage inWidth inHeight outWidth j i l k s).yOut = s.yOut ∧
    (inputBlock sin cos pi inImage inWidth inHeight outWidth j i l k s).zOut = s.zOut := by
  unfold inputBlock inputPixelStep
  simp only []
  split_ifs <;> exact ⟨rfl, rfl, rfl, rfl⟩

/-- A run of input blocks, for any output and input pixels: every block works with the
output direction found in the shared variables at the start of the run. -/
theorem runBlocks_inputBlocks (sin cos : α → α) (pi : α) (inImage : List α)
    (inWidth inHeight outWidth : Int) (qs : List (ℕ × ℕ × ℕ × ℕ)) (s : Shared α) :
    (runBlocks (qs.map (fun q =>
        inputBlock sin cos pi inImage inWidth inHeight outWidth q.1 q.2.1 q.2.2.1 q.2.2.2))
        s).outImage =
      qs.foldl (fun out q => inputPixelStep sin cos pi inImage inWidth inHeight outWidth
        s.xOut s.yOut s.zOut q.1 q.2.1 q.2.2.1 q.2.2.2 out) s.outImage ∧
    (runBlocks (qs.map (fun q =>
        inputBlock sin cos pi inImage inWidth inHeight outWidth q.1 q.2.1 q.2.2.1 q.2.2.2))
        s).xOut = s.xOut ∧
    (runBlocks (qs.map (fun q =>
        inputBlock sin cos pi inImage inWidth inHeight outWidth q.1 q.2.1 q.2.2.1 q.2.2.2))
        s).yOut = s.yOut ∧
    (runBlocks (qs.map (fun q =>
        inputBlock sin cos pi inImage inWidth inHeight outWidth q.1 q.2.1 q.2.2.1 q.2.2.2))
        s).zOut = s.zOut := by
  induction qs generalizing s with
  | nil => exact ⟨rfl, rfl, rfl, rfl⟩
  | cons q qs ih =>
    obtain ⟨h1, h2, h3, h4⟩ := inputBlock_spec sin cos pi inImage inWidth inHeight outWidth
      q.1 q.2.1 q.2.2.1 q.2.2.2 s
    obtain ⟨g1, g2, g3, g4⟩ := ih
      (inputBlock sin cos pi inImage inWidth inHeight outWidth q.1 q.2.1 q.2.2.1 q.2.2.2 s)
    rw [List.map_cons, runBlocks_cons]
    refine ⟨?_, by rw [g2, h2], by rw [g3, h3], by rw [g4, h4]⟩
    rw [g1, h1, h2, h3, h4, List.foldl_cons]

/-- Entry `m` after a run of input blocks. -/
theorem runBlocks_inputBlocks_entry (sin cos : α → α) (pi : α) (inImage : List α)
    (inWidth inHeight outWidth : Int) (qs : List (ℕ × ℕ × ℕ × ℕ)) (s : Shared α) (m : ℕ)
    (hm : m < s.outImage.length) :
    (runBlocks (qs.map (fun q =>
        inputBlock sin cos pi inImage inWidth inHeight outWidth q.1 q.2.1 q.2.2.1 q.2.2.2))
        s).outImage.getD m 0 =
      s.outImage.getD m 0 + (qs.map (fun q =>
        stepDelta sin cos pi inImage inWidth inHeight outWidth s.xOut s.yOut s.zOut
          q.1 q.2.1 q.2.2.1 q.2.2.2 m)).sum := by
  rw [(runBlocks_inputBlocks sin cos pi inImage inWidth inHeight outWidth qs s).1]
  exact (adds_foldl_list
    (fun (q : ℕ × ℕ × ℕ × ℕ) => inputPixelStep sin cos pi inImage inWidth inHeight outWidth
      s.xOut s.yOut s.zOut q.1 q.2.1 q.2.2.1 q.2.2.2) _
    (fun q => adds_inputPixelStep sin cos pi inImage inWidth inHeight outWidth
      s.xOut s.yOut s.zOut q.1 q.2.1 q.2.2.1 q.2.2.2) qs s.outImage).2 m hm

end ParallelLemmas

/-- The blocks of the thread that works on row `j` of a 1x2 output over a 1x2 input. -/
theorem rowBlocks_small (pi : ℝ) (inImage : List ℝ) (j : ℕ) :
    rowBlocks Real.sin Real.cos pi inImage ((1 : ℕ) : Int) ((2 : ℕ) : Int) ((1 : ℕ) : Int)
        ((2 : ℕ) : Int) j =
      directionBlock Real.sin Real.cos pi ((1 : ℕ) : Int) ((2 : ℕ) : Int) j 0 ::
        [(j, 0, 0, 0), (j, 0, 1, 0)].map (fun (q : ℕ × ℕ × ℕ × ℕ) =>
          inputBlock Real.sin Real.cos pi inImage ((1 : ℕ) : Int) ((2 : ℕ) : Int)
            ((1 : ℕ) : Int) q.1 q.2.1 q.2.2.1 q.2.2.2) := rfl

/-- The loop nest for a 1x2 output over a 1x2 input, unfolded. -/
theorem integrate_small (pi : ℝ) (inImage : List ℝ) (out : List ℝ) :
    integrate Real.sin Real.cos pi inImage ((1 : ℕ) : Int) ((2 : ℕ) : Int) ((1 : ℕ) : Int)
        ((2 : ℕ) : Int) out =
      [(1, 0, 0, 0), (1, 0, 1, 0)].foldl (fun o (q : ℕ × ℕ × ℕ × ℕ) =>
        inputPixelStep Real.sin Real.cos pi inImage ((1 : ℕ) : Int) ((2 : ℕ) : Int)
          ((1 : ℕ) : Int)
          (outDirection Real.sin Real.cos pi ((1 : ℕ) : Int) ((2 : ℕ) : Int) 1 0).1
          (outDirection Real.sin Real.cos pi ((1 : ℕ) : Int) ((2 : ℕ) : Int) 1 0).2.1
          (outDirection Real.sin Real.cos pi ((1 : ℕ) : Int) ((2 : ℕ) : Int) 1 0).2.2
          q.1 q.2.1 q.2.2.1 q.2.2.2 o)
        ([(0, 0, 0, 0), (0, 0, 1, 0)].foldl (fun o (q : ℕ × ℕ × ℕ × ℕ) =>
          inputPixelStep Real.sin Real.cos pi inImage ((1 : ℕ) : Int) ((2 : ℕ) : Int)
            ((1 : ℕ) : Int)
            (outDirection Real.sin Real.cos pi ((1 : ℕ) : Int) ((2 : ℕ) : Int) 0 0).1
            (outDirection Real.sin Real.cos pi ((1 : ℕ) : Int) ((2 : ℕ) : Int) 0 0).2.1
            (outDirection Real.sin Real.cos pi ((1 : ℕ) : Int) ((2 : ℕ) : Int) 0 0).2.2
            q.1 q.2.1 q.2.2.1 q.2.2.2 o) out) := rfl

/-- When the first thread runs all its blocks before the second starts, the output buffer
is the one the loop nest leaves. -/
theorem sequential_schedule_small (pi : ℝ) (inImage : List ℝ) (s : Shared ℝ) :
    (runBlocks (interleave []
        (rowBlocks Real.sin Real.cos pi inImage ((1 : ℕ) : Int) ((2 : ℕ) : Int)
          ((1 : ℕ) : Int) ((2 : ℕ) : Int) 0)
        (rowBlocks Real.sin Real.cos pi inImage ((1 : ℕ) : Int) ((2 : ℕ) : Int)
          ((1 : ℕ) : Int) ((2 : ℕ) : Int) 1)) s).outImage =
      integrate Real.sin Real.cos pi inImage ((1 : ℕ) : Int) ((2 : ℕ) : Int) ((1 : ℕ) : Int)
        ((2 : ℕ) : Int) s.outImage := by
  rw [rowBlocks_small, rowBlocks_small, integrate_small]
  show (runBlocks (_ :: (_ ++ _ :: _)) s).outImage = _
  rw [runBlocks_cons, runBlocks_append, runBlocks_cons]
  obtain ⟨a1, a2, a3, a4⟩ := directionBlock_spec Real.sin Real.cos pi ((1 : ℕ) : Int)
    ((2 : ℕ) : Int) 0 0 s
  obtain ⟨b1, _, _, _⟩ := runBlocks_inputBlocks Real.sin Real.cos pi inImage ((1 : ℕ) : Int)
    ((2 : ℕ) : Int) ((1 : ℕ) : Int) [(0, 0, 0, 0), (0, 0, 1, 0)]
    (directionBlock Real.sin Real.cos pi ((1 : ℕ) : Int) ((2 : ℕ) : Int) 0 0 s)
  obtain ⟨c1, c2, c3, c4⟩ := directionBlock_spec Real.sin Real.cos pi ((1 : ℕ) : Int)
    ((2 : ℕ) : Int) 1 0
    (runBlocks ([(0, 0, 0, 0), (0, 0, 1, 0)].map (fun (q : ℕ × ℕ × ℕ × ℕ) =>
        inputBlock Real.sin Real.cos pi inImage ((1 : ℕ) : Int) ((2 : ℕ) : Int)
          ((1 : ℕ) : Int) q.1 q.2.1 q.2.2.1 q.2.2.2))
      (directionBlock Real.sin Real.cos pi ((1 : ℕ) : Int) ((2 : ℕ) : Int) 0 0 s))
  obtain ⟨d1, _, _, _⟩ := runBlocks_inputBlocks Real.sin Real.cos pi inImage ((1 : ℕ) : Int)
    ((2 : ℕ) : Int) ((1 : ℕ) : Int) [(1, 0, 0, 0), (1, 0, 1, 0)]
    (directionBlock Real.sin Real.cos pi ((1 : ℕ) : Int) ((2 : ℕ) : Int) 1 0
      (runBlocks ([(0, 0, 0, 0), (0, 0, 1, 0)].map (fun (q : ℕ × ℕ × ℕ × ℕ) =>
          inputBlock Real.sin Real.cos pi inImage ((1 : ℕ) : Int) ((2 : ℕ) : Int)
            ((1 : ℕ) : Int) q.1 q.2.1 q.2.2.1 q.2.2.2))
        (directionBlock Real.sin Real.cos pi ((1 : ℕ) : Int) ((2 : ℕ) : Int) 0 0 s)))
  rw [d1, c1, c2, c3, c4, b1, a1, a2, a3, a4]

/-- The schedule in which the second thread stores its direction right after the first
thread stored its own: the blocks in the order in which they run. -/
theorem interleaved_schedule_small (pi : ℝ) (inImage : List ℝ) :
    interleave [true, false]
        (rowBlocks Real.sin Real.cos pi inImage ((1 : ℕ) : Int) ((2 : ℕ) : Int)
          ((1 : ℕ) : Int) ((2 : ℕ) : Int) 0)
        (rowBlocks Real.sin Real.cos pi inImage ((1 : ℕ) : Int) ((2 : ℕ) : Int)
          ((1 : ℕ) : Int) ((2 : ℕ) : Int) 1) =
      directionBlock Real.sin Real.cos pi ((1 : ℕ) : Int) ((2 : ℕ) : Int) 0 0 ::
      directionBlock Real.sin Real.cos pi ((1 : ℕ) : Int) ((2 : ℕ) : Int) 1 0 ::
        [(0, 0, 0, 0), (0, 0, 1, 0), (1, 0, 0, 0), (1, 0, 1, 0)].map
          (fun (q : ℕ × ℕ × ℕ × ℕ) =>
            inputBlock Real.sin Real.cos pi inImage ((1 : ℕ) : Int) ((2 : ℕ) : Int)
              ((1 : ℕ) : Int) q.1 q.2.1 q.2.2.1 q.2.2.2) := rfl

/-- Entry 0 (red channel of output pixel (0, 0)) under that schedule: the first thread
accumulates with the direction of the second thread's pixel. -/
theorem interleaved_entry_small (pi : ℝ) (inImage : List ℝ) :
    (runBlocks (interleave [true, false]
        (rowBlocks Real.sin Real.cos pi inImage ((1 : ℕ) : Int) ((2 : ℕ) : Int)
          ((1 : ℕ) : Int) ((2 : ℕ) : Int) 0)
        (rowBlocks Real.sin Real.cos pi inImage ((1 : ℕ) : Int) ((2 : ℕ) : Int)
          ((1 : ℕ) : Int) ((2 : ℕ) : Int) 1)) (initialShared 6)).outImage.getD
        (3 * (0 * 1 + 0) + 0) 0 =
      ∑ l ∈ Finset.range 2, ∑ k ∈ Finset.range 1,
        if omegaDot (outDirection Real.sin Real.cos pi ((1 : ℕ) : Int) ((2 : ℕ) : Int) 1 0)
            (inDirection Real.sin Real.cos pi ((1 : ℕ) : Int) ((2 : ℕ) : Int) l k) < 0 then 0
        else inImage.getD (3 * (l * 1 + k) + 0) 0 *
          omegaDot (outDirection Real.sin Real.cos pi ((1 : ℕ) : Int) ((2 : ℕ) : Int) 1 0)
            (inDirection Real.sin Real.cos pi ((1 : ℕ) : Int) ((2 : ℕ) : Int) l k) *
          Real.sin ((pi * ((l : ℝ) + (1 / 2))) / (((2 : ℕ) : Int) : ℝ)) * pi /
            (((2 : ℕ) : Int) : ℝ) * 2 * pi / (((1 : ℕ) : Int) : ℝ) := by
  rw [interleaved_schedule_small, runBlocks_cons, runBlocks_cons,
    runBlocks_inputBlocks_entry _ _ _ _ _ _ _ _ _ _ (by simp [directionBlock, initialShared])]
  have h0 : (directionBlock Real.sin Real.cos pi ((1 : ℕ) : Int) ((2 : ℕ) : Int) 1 0
      (directionBlock Real.sin Real.cos pi ((1 : ℕ) : Int) ((2 : ℕ) : Int) 0 0
        (initialShared 6))).outImage.getD (3 * (0 * 1 + 0) + 0) 0 = 0 := by
    simp [directionBlock, initialShared]
  rw [h0, zero_add]
  obtain ⟨_, c2, c3, c4⟩ := directionBlock_spec Real.sin Real.cos pi ((1 : ℕ) : Int)
    ((2 : ℕ) : Int) 1 0
    (directionBlock Real.sin Real.cos pi ((1 : ℕ) : Int) ((2 : ℕ) : Int) 0 0
      (initialShared 6))
  rw [c2, c3, c4]
  simp only [List.map_cons, List.map_nil, List.sum_cons, List.sum_nil]
  rw [stepDelta_self Real.sin Real.cos pi inImage 1 2 1 _ _ _ 0 0 0 0 (by decide),
    stepDelta_self Real.sin Real.cos pi inImage 1 2 1 _ _ _ 0 0 1 0 (by decide),
    stepDelta_other Real.sin Real.cos pi inImage ((1 : ℕ) : Int) ((2 : ℕ) : Int) 1 _ _ _ 0 0
      (by decide) (by decide) (by decide) (by decide),
    stepDelta_other Real.sin Real.cos pi inImage ((1 : ℕ) : Int) ((2 : ℕ) : Int) 1 _ _ _ 1 0
      (by decide) (by decide) (by decide) (by decide)]
  simp only [Finset.sum_range_succ, Finset.sum_range_zero, zero_add, add_zero]

/-- The sum of the increments for the 1x2 input image whose upper pixel is white and whose
lower pixel is black, seen from a direction `N`. -/
theorem small_sum (p : ℝ) (N : ℝ × ℝ × ℝ) :
    (∑ l ∈ Finset.range 2, ∑ k ∈ Finset.range 1,
        if omegaDot N
            (inDirection Real.sin Real.cos p ((1 : ℕ) : Int) ((2 : ℕ) : Int) l k) < 0 then 0
        else ([1, 1, 1, 0, 0, 0] : List ℝ).getD (3 * (l * 1 + k) + 0) 0 *
          omegaDot N (inDirection Real.sin Real.cos p ((1 : ℕ) : Int) ((2 : ℕ) : Int) l k) *
          Real.sin ((p * ((l : ℝ) + (1 / 2))) / (((2 : ℕ) : Int) : ℝ)) * p /
            (((2 : ℕ) : Int) : ℝ) * 2 * p / (((1 : ℕ) : Int) : ℝ)) =
      if omegaDot N
          (inDirection Real.sin Real.cos p ((1 : ℕ) : Int) ((2 : ℕ) : Int) 0 0) < 0 then 0
      else omegaDot N (inDirection Real.sin Real.cos p ((1 : ℕ) : Int) ((2 : ℕ) : Int) 0 0) *
        Real.sin (p / 4) * p * p := by
  simp only [Finset.sum_range_succ, Finset.sum_range_zero, zero_add]
  have g0 : ([1, 1, 1, 0, 0, 0] : List ℝ).getD (3 * (0 * 1 + 0) + 0) 0 = 1 := rfl
  have g1 : ([1, 1, 1, 0, 0, 0] : List ℝ).getD (3 * (1 * 1 + 0) + 0) 0 = 0 := rfl
  have e : p * (((0 : ℕ) : ℝ) + 1 / 2) / (((2 : ℕ) : Int) : ℝ) = p / 4 := by
    push_cast; ring
  rw [g0, g1, e]
  have hsecond : (if omegaDot N
        (inDirection Real.sin Real.cos p ((1 : ℕ) : Int) ((2 : ℕ) : Int) 1 0) < 0 then (0 : ℝ)
      else 0 * omegaDot N
          (inDirection Real.sin Real.cos p ((1 : ℕ) : Int) ((2 : ℕ) : Int) 1 0) *
        Real.sin (p * (((1 : ℕ) : ℝ) + 1 / 2) / (((2 : ℕ) : Int) : ℝ)) * p /
          (((2 : ℕ) : Int) : ℝ) * 2 * p / (((1 : ℕ) : Int) : ℝ)) = 0 := by
    split_ifs <;> simp
  rw [hsecond, add_zero]
  split_ifs
  · rfl
  · push_cast
    ring

/-- The dot products of the two output directions of a 1x2 output with the direction of the
upper pixel of a 1x2 input. -/
theorem small_dots (p : ℝ) :
    omegaDot (outDirection Real.sin Real.cos p ((1 : ℕ) : Int) ((2 : ℕ) : Int) 0 0)
        (inDirection Real.sin Real.cos p ((1 : ℕ) : Int) ((2 : ℕ) : Int) 0 0) = 1 ∧
    omegaDot (outDirection Real.sin Real.cos p ((1 : ℕ) : Int) ((2 : ℕ) : Int) 1 0)
        (inDirection Real.sin Real.cos p ((1 : ℕ) : Int) ((2 : ℕ) : Int) 0 0) =
      Real.cos (p / 2) := by
  have e0 : p * (((0 : ℕ) : ℝ) + 1 / 2) / (((2 : ℕ) : Int) : ℝ) = p / 4 := by
    push_cast; ring
  have e1 : p * (((1 : ℕ) : ℝ) + 1 / 2) / (((2 : ℕ) : Int) : ℝ) = 3 * p / 4 := by
    push_cast; ring
  have e2 : 2 * p * (((0 : ℕ) : ℝ) + 1 / 2) / (((1 : ℕ) : Int) : ℝ) = p := by
    push_cast; ring
  simp only [omegaDot, outDirection, inDirection, e0, e1, e2]
  have h1 := Real.sin_sq_add_cos_sq p
  have h2 := Real.sin_sq_add_cos_sq (p / 4)
  constructor
  · linear_combination (Real.sin (p / 4)) ^ 2 * h1 + h2
  · have e3 : p / 2 = 3 * p / 4 - p / 4 := by ring
    rw [e3, Real.cos_sub]
    linear_combination (Real.sin (3 * p / 4) * Real.sin (p / 4)) * h1

/-- C11, at two threads: for the 1x2 input image whose upper pixel is white and whose lower
pixel is black and a 1x2 output, the schedule in which the first thread finishes before the
second starts leaves the buffer of the sequential loop nest, but the schedule in which the
second thread stores its direction in the shared variables `xOut`, `yOut`, `zOut` before
the first thread accumulates leaves another value in the red channel of output pixel
(0, 0): the output depends on the schedule. -/
theorem parallel_loop_schedule_dependent :
    (runBlocks (interleave []
        (rowBlocks Real.sin Real.cos (pi : ℝ) [1, 1, 1, 0, 0, 0] ((1 : ℕ) : Int)
          ((2 : ℕ) : Int) ((1 : ℕ) : Int) ((2 : ℕ) : Int) 0)
        (rowBlocks Real.sin Real.cos (pi : ℝ) [1, 1, 1, 0, 0, 0] ((1 : ℕ) : Int)
          ((2 : ℕ) : Int) ((1 : ℕ) : Int) ((2 : ℕ) : Int) 1)) (initialShared 6)).outImage =
      integrate Real.sin Real.cos (pi : ℝ) [1, 1, 1, 0, 0, 0] ((1 : ℕ) : Int) ((2 : ℕ) : Int)
        ((1 : ℕ) : Int) ((2 : ℕ) : Int) (List.replicate 6 0) ∧
    (runBlocks (interleave [true, false]
        (rowBlocks Real.sin Real.cos (pi : ℝ) [1, 1, 1, 0, 0, 0] ((1 : ℕ) : Int)
          ((2 : ℕ) : Int) ((1 : ℕ) : Int) ((2 : ℕ) : Int) 0)
        (rowBlocks Real.sin Real.cos (pi : ℝ) [1, 1, 1, 0, 0, 0] ((1 : ℕ) : Int)
          ((2 : ℕ) : Int) ((1 : ℕ) : Int) ((2 : ℕ) : Int) 1))
        (initialShared 6)).outImage.getD 0 0 ≠
      (integrate Real.sin Real.cos (pi : ℝ) [1, 1, 1, 0, 0, 0] ((1 : ℕ) : Int)
        ((2 : ℕ) : Int) ((1 : ℕ) : Int) ((2 : ℕ) : Int) (List.replicate 6 0)).getD 0 0 := by
  refine ⟨sequential_schedule_small _ _ _, ?_⟩
  have hidx : (0 : ℕ) = 3 * (0 * 1 + 0) + 0 := rfl
  rw [hidx, interleaved_entry_small,
    integrate_entry Real.sin Real.cos (pi : ℝ) [1, 1, 1, 0, 0, 0] 1 2 1 2 _ (by simp)
      (by decide) (by decide) (by decide),
    getD_replicate_of_lt _ _ _ _ (by decide), zero_add, small_sum, small_sum]
  obtain ⟨d0, d1⟩ := small_dots (pi : ℝ)
  rw [d0, d1]
  have hp : (pi : ℝ) = 3.141592 := rfl
  have hpi := Real.pi_gt_d6
  have hc0 : 0 < Real.cos ((pi : ℝ) / 2) :=
    Real.cos_pos_of_mem_Ioo ⟨by rw [hp]; linarith, by rw [hp]; linarith⟩
  have hc1 : Real.cos ((pi : ℝ) / 2) < 1 := by
    have := Real.cos_lt_cos_of_nonneg_of_le_pi_div_two (le_refl (0 : ℝ))
      (by rw [hp]; linarith : (pi : ℝ) / 2 ≤ Real.pi / 2) (by rw [hp]; norm_num)
    rwa [Real.cos_zero] at this
  have hs : 0 < Real.sin ((pi : ℝ) / 4) :=
    Real.sin_pos_of_pos_of_lt_pi (by rw [hp]; norm_num) (by rw [hp]; linarith)
  have hpp : (0 : ℝ) < (pi : ℝ) := by rw [hp]; norm_num
  rw [if_neg (not_lt.2 hc0.le), if_neg (by norm_num)]
  intro h
  have hpos : 0 < Real.sin ((pi : ℝ) / 4) * (pi : ℝ) * (pi : ℝ) := by positivity
  nlinarith

/-- C15: output pixels are independent. For an output pixel (column `i`, row `j`) of an
`outW x outH` raster and a buffer of length `3 * outW * outH`: its three entries
`3*j*outW + 3*i + ch` lie inside the buffer; the work for the pixel keeps the length of the
buffer and leaves every other entry unchanged; what it adds to its own entries is a sum
over the input image only; and after the work for any sequence of output pixels in which
the pixel occurs once, its entries are the ones its own work alone leaves. -/
theorem output_pixel_independent (pi : ℝ) (inImage : List ℝ) (inW inH outW outH : ℕ)
    (j i : ℕ) (out : List ℝ) (hi : i < outW) (hj : j < outH)
    (hlen : out.length = 3 * outW * outH) :
    (∀ ch, ch < 3 → 3 * j * outW + 3 * i + ch < 3 * outW * outH) ∧
    (outputPixelStep Real.sin Real.cos pi inImage inW inH outW outH j i out).length =
      out.length ∧
    (∀ m, (∀ ch, ch < 3 → m ≠ 3 * j * outW + 3 * i + ch) →
      (outputPixelStep Real.sin Real.cos pi inImage inW inH outW outH j i out).getD m 0 =
        out.getD m 0) ∧
    (∀ ch, ch < 3 →
      (outputPixelStep Real.sin Real.cos pi inImage inW inH outW outH j i out).getD
          (3 * j * outW + 3 * i + ch) 0 =
        out.getD (3 * j * outW + 3 * i + ch) 0 +
        ∑ l ∈ Finset.range inH, ∑ k ∈ Finset.range inW,
          if omegaDot (outDirection Real.sin Real.cos pi outW outH j i)
              (inDirection Real.sin Real.cos pi inW inH l k) < 0 then 0
          else inImage.getD (3 * l * inW + 3 * k + ch) 0 *
            omegaDot (outDirection Real.sin Real.cos pi outW outH j i)
              (inDirection Real.sin Real.cos pi inW inH l k) *
            Real.sin ((pi * ((l : ℝ) + (1 / 2))) / (inH : ℝ)) * pi / (inH : ℝ) * 2 * pi /
              (inW : ℝ)) ∧
    (∀ before after : List (ℕ × ℕ),
      (∀ q ∈ before ++ after, q.1 < outH ∧ q.2 < outW ∧ q ≠ (j, i)) →
      ∀ ch, ch < 3 →
        ((before ++ (j, i) :: after).foldl
            (fun b q => outputPixelStep Real.sin Real.cos pi inImage inW inH outW outH
              q.1 q.2 b) out).getD (3 * j * outW + 3 * i + ch) 0 =
          (outputPixelStep Real.sin Real.cos pi inImage inW inH outW outH j i out).getD
            (3 * j * outW + 3 * i + ch) 0) := by
  have e : ∀ ch, 3 * j * outW + 3 * i + ch = 3 * (j * outW + i) + ch := fun ch => by ring
  have e2 : ∀ l k ch : ℕ, 3 * l * inW + 3 * k + ch = 3 * (l * inW + k) + ch :=
    fun l k ch => by ring
  refine ⟨?_, ?_, ?_, ?_, ?_⟩
  · intro ch hc
    rw [e]
    exact index_lt hi hj hc
  · exact (adds_outputPixelStep Real.sin Real.cos pi inImage inW inH outW outH j i out).1
  · intro m hm
    exact outputPixelStep_frame Real.sin Real.cos pi inImage inW inH outW outH j i out m
      (fun ch hc => by rw [← e]; exact hm ch hc)
  · intro ch hc
    rw [e, outputPixelStep_eq,
      accumulatePixel_entry Real.sin Real.cos pi inImage inW inH outW _ _ _ out j i hc
        (by rw [hlen]; exact index_lt hi hj hc)]
    simp only [e2, Int.cast_natCast]
  · intro before after hq ch hc
    rw [e]
    exact foldl_pixels_entry Real.sin Real.cos pi inImage inW inH outW outH j i ch hi hc
      before after (fun q hqm => ⟨(hq q hqm).2.1, (hq q hqm).2.2⟩) out
      (by rw [hlen]; exact index_lt hi hj hc)

/-- Witness for C15: pixel (0, 0) of a 2x1 output over a 1x1 input; the buffer keeps its
length 6 and entry 3, which belongs to the other pixel, keeps its value. -/
theorem output_pixel_independent_witness :
    (outputPixelStep Real.sin Real.cos (pi : ℝ) [1, 2, 3] ((1 : ℕ) : Int) ((1 : ℕ) : Int)
        ((2 : ℕ) : Int) ((1 : ℕ) : Int) 0 0 [0, 0, 0, 7, 8, 9]).length = 6 ∧
    (outputPixelStep Real.sin Real.cos (pi : ℝ) [1, 2, 3] ((1 : ℕ) : Int) ((1 : ℕ) : Int)
        ((2 : ℕ) : Int) ((1 : ℕ) : Int) 0 0 [0, 0, 0, 7, 8, 9]).getD 3 0 =
      ([0, 0, 0, 7, 8, 9] : List ℝ).getD 3 0 :=
  ⟨(output_pixel_independent (pi : ℝ) [1, 2, 3] 1 1 2 1 0 0 [0, 0, 0, 7, 8, 9] (by decide)
      (by decide) rfl).2.1,
    (output_pixel_independent (pi : ℝ) [1, 2, 3] 1 1 2 1 0 0 [0, 0, 0, 7, 8, 9] (by decide)
      (by decide) rfl).2.2.1 3 (fun ch hc => by omega)⟩

/-- C16, as stated, fails: the direction computed for the single pixel of a 1x1 output
raster is not `(0, 0, 1)`. -/
theorem single_pixel_not_north_pole :
    outDirection Real.sin Real.cos (pi : ℝ) 1 1 0 0 ≠ (0, 0, 1) := by
  intro h
  have hz : Real.cos ((pi : ℝ) * (((0 : ℕ) : ℝ) + 1 / 2) / ((1 : Int) : ℝ)) = 1 :=
    congrArg (fun d => d.2.2) h
  have hp : (pi : ℝ) = 3.141592 := rfl
  have e : (pi : ℝ) * (((0 : ℕ) : ℝ) + 1 / 2) / ((1 : Int) : ℝ) = 3.141592 / 2 := by
    rw [hp]; push_cast; ring
  rw [e] at hz
  have hpi := Real.pi_gt_d6
  have hpi2 := Real.pi_lt_d6
  have hlt : Real.cos (3.141592 / 2) < Real.cos 0 :=
    Real.cos_lt_cos_of_nonneg_of_le_pi_div_two le_rfl (by linarith) (by norm_num)
  rw [Real.cos_zero, hz] at hlt
  exact lt_irrefl _ hlt

/-- C16, amended: for a 1x1 output raster the direction of the single pixel is
`(sin (pi/2) * cos pi, sin (pi/2) * sin pi, cos (pi/2))` with the constant `pi` of `main`,
which is the point `(-1, 0, 0)` of the equator up to one millionth in each coordinate. -/
theorem single_pixel_direction :
    outDirection Real.sin Real.cos (pi : ℝ) 1 1 0 0 =
      (Real.sin ((pi : ℝ) / 2) * Real.cos (pi : ℝ), Real.sin ((pi : ℝ) / 2) * Real.sin (pi : ℝ),
        Real.cos ((pi : ℝ) / 2)) ∧
    |(outDirection Real.sin Real.cos (pi : ℝ) 1 1 0 0).1 - (-1)| ≤ 0.000001 ∧
    |(outDirection Real.sin Real.cos (pi : ℝ) 1 1 0 0).2.1 - 0| ≤ 0.000001 ∧
    |(outDirection Real.sin Real.cos (pi : ℝ) 1 1 0 0).2.2 - 0| ≤ 0.000001 := by
  have hdir : outDirection Real.sin Real.cos (pi : ℝ) 1 1 0 0 =
      (Real.sin ((pi : ℝ) / 2) * Real.cos (pi : ℝ),
        Real.sin ((pi : ℝ) / 2) * Real.sin (pi : ℝ), Real.cos ((pi : ℝ) / 2)) := by
    have e1 : (pi : ℝ) * (((0 : ℕ) : ℝ) + 1 / 2) / ((1 : Int) : ℝ) = (pi : ℝ) / 2 := by
      push_cast; ring
    have e2 : 2 * (pi : ℝ) * (((0 : ℕ) : ℝ) + 1 / 2) / ((1 : Int) : ℝ) = (pi : ℝ) := by
      push_cast; ring
    simp only [outDirection, e1, e2]
  refine ⟨hdir, ?_⟩
  rw [hdir]
  have hp : (pi : ℝ) = 3.141592 := rfl
  have hpi := Real.pi_gt_d6
  have hpi2 := Real.pi_lt_d6
  -- the distance of the constant from the circle constant
  obtain ⟨δ, hδ⟩ : ∃ δ : ℝ, δ = Real.pi - (pi : ℝ) := ⟨_, rfl⟩
  have hδ0 : 0 < δ := by rw [hδ, hp]; linarith
  have hδ1 : δ < 0.000001 := by rw [hδ, hp]; linarith
  have epi : (pi : ℝ) = Real.pi - δ := by rw [hδ]; ring
  have ehalf : (pi : ℝ) / 2 = Real.pi / 2 - δ / 2 := by rw [hδ]; ring
  have hs2 : Real.sin ((pi : ℝ) / 2) = Real.cos (δ / 2) := by
    rw [ehalf, Real.sin_pi_div_two_sub]
  have hc2 : Real.cos ((pi : ℝ) / 2) = Real.sin (δ / 2) := by
    rw [ehalf, Real.cos_pi_div_two_sub]
  have hs : Real.sin (pi : ℝ) = Real.sin δ := by rw [epi, Real.sin_pi_sub]
  have hc : Real.cos (pi : ℝ) = -Real.cos δ := by rw [epi, Real.cos_pi_sub]
  rw [hs2, hc2, hs, hc]
  have a1 : 1 - (δ / 2) ^ 2 / 2 ≤ Real.cos (δ / 2) := Real.one_sub_sq_div_two_le_cos
  have a2 : Real.cos (δ / 2) ≤ 1 := Real.cos_le_one _
  have a3 : 1 - δ ^ 2 / 2 ≤ Real.cos δ := Real.one_sub_sq_div_two_le_cos
  have a4 : Real.cos δ ≤ 1 := Real.cos_le_one _
  have a5 : 0 < Real.sin δ := Real.sin_pos_of_pos_of_lt_pi hδ0 (by linarith)
  have a6 : Real.sin δ < δ := Real.sin_lt hδ0
  have a7 : 0 < Real.sin (δ / 2) := Real.sin_pos_of_pos_of_lt_pi (by linarith) (by linarith)
  have a8 : Real.sin (δ / 2) < δ / 2 := Real.sin_lt (by linarith)
  have b1 : 0.9999999 ≤ Real.cos (δ / 2) := by nlinarith
  have b2 : 0.9999999 ≤ Real.cos δ := by nlinarith
  clear hp epi ehalf hs2 hc2 hs hc hδ hdir a1 a3
  have c1 : 0.9999998 ≤ Real.cos (δ / 2) * Real.cos δ := by nlinarith
  have c2 : Real.cos (δ / 2) * Real.cos δ ≤ 1 := by nlinarith
  have c3 : 0 ≤ Real.cos (δ / 2) * Real.sin δ := by nlinarith
  have c4 : Real.cos (δ / 2) * Real.sin δ ≤ Real.sin δ := by nlinarith
  refine ⟨?_, ?_, ?_⟩
  · rw [abs_le]
    constructor <;> linarith
  · rw [abs_le]
    constructor <;> linarith
  · rw [abs_le]
    constructor <;> linarith

/-- C17: the integrator is linear in the input image. For input images `A` and `B` of the
same size and scalars `a` and `b`, the value of every output pixel and channel for the image
`a * A + b * B` is `a` times the value for `A` plus `b` times the value for `B`; and the
value of channel `ch` is the same for two images that agree on channel `ch` of every
pixel. -/
theorem integrate_linear (pi a b : ℝ) (A B : List ℝ) (inW inH outW outH : ℕ) (j i ch : ℕ)
    (hlen : A.length = B.length) (hi : i < outW) (hj : j < outH) (hc : ch < 3) :
    (integrate Real.sin Real.cos pi (combine a b A B) inW inH outW outH
        (List.replicate (3 * outW * outH) 0)).getD (3 * (j * outW + i) + ch) 0 =
      a * (integrate Real.sin Real.cos pi A inW inH outW outH
        (List.replicate (3 * outW * outH) 0)).getD (3 * (j * outW + i) + ch) 0 +
      b * (integrate Real.sin Real.cos pi B inW inH outW outH
        (List.replicate (3 * outW * outH) 0)).getD (3 * (j * outW + i) + ch) 0 ∧
    ∀ C : List ℝ,
      (∀ l k, C.getD (3 * (l * inW + k) + ch) 0 = A.getD (3 * (l * inW + k) + ch) 0) →
      (integrate Real.sin Real.cos pi C inW inH outW outH
        (List.replicate (3 * outW * outH) 0)).getD (3 * (j * outW + i) + ch) 0 =
      (integrate Real.sin Real.cos pi A inW inH outW outH
        (List.replicate (3 * outW * outH) 0)).getD (3 * (j * outW + i) + ch) 0 := by
  have hl : (List.replicate (3 * outW * outH) (0 : ℝ)).length = 3 * outW * outH := by simp
  constructor
  · rw [integrate_entry Real.sin Real.cos pi _ inW inH outW outH _ hl hi hj hc,
      integrate_entry Real.sin Real.cos pi A inW inH outW outH _ hl hi hj hc,
      integrate_entry Real.sin Real.cos pi B inW inH outW outH _ hl hi hj hc,
      getD_replicate_of_lt _ _ _ _ (index_lt hi hj hc), zero_add, zero_add, zero_add,
      Finset.mul_sum, Finset.mul_sum, ← Finset.sum_add_distrib]
    refine Finset.sum_congr rfl (fun l _ => ?_)
    rw [Finset.mul_sum, Finset.mul_sum, ← Finset.sum_add_distrib]
    refine Finset.sum_congr rfl (fun k _ => ?_)
    rw [getD_combine a b A B hlen]
    split_ifs <;> ring
  · intro C hC
    rw [integrate_entry Real.sin Real.cos pi C inW inH outW outH _ hl hi hj hc,
      integrate_entry Real.sin Real.cos pi A inW inH outW outH _ hl hi hj hc]
    congr 1
    refine Finset.sum_congr rfl (fun l _ => Finset.sum_congr rfl (fun k _ => ?_))
    rw [hC l k]

/-- Witness for C17: two 1x1 images, the scalars 2 and 5, and pixel (0, 0) of a 2x1 output. -/
theorem integrate_linear_witness :
    (integrate Real.sin Real.cos (pi : ℝ) (combine 2 5 [1, 2, 3] [4, 5, 6]) ((1 : ℕ) : Int)
        ((1 : ℕ) : Int) ((2 : ℕ) : Int) ((1 : ℕ) : Int)
        (List.replicate (3 * 2 * 1) 0)).getD (3 * (0 * 2 + 0) + 0) 0 =
      2 * (integrate Real.sin Real.cos (pi : ℝ) [1, 2, 3] ((1 : ℕ) : Int) ((1 : ℕ) : Int)
        ((2 : ℕ) : Int) ((1 : ℕ) : Int)
        (List.replicate (3 * 2 * 1) 0)).getD (3 * (0 * 2 + 0) + 0) 0 +
      5 * (integrate Real.sin Real.cos (pi : ℝ) [4, 5, 6] ((1 : ℕ) : Int) ((1 : ℕ) : Int)
        ((2 : ℕ) : Int) ((1 : ℕ) : Int)
        (List.replicate (3 * 2 * 1) 0)).getD (3 * (0 * 2 + 0) + 0) 0 :=
  (integrate_linear (pi : ℝ) 2 5 [1, 2, 3] [4, 5, 6] 1 1 2 1 0 0 0 rfl (by decide) (by decide)
    (by decide)).1

end FilterAseem

/-! ## The claims about the matrix library -/

namespace Transform

/-- C13: for every axis `i` in {0, 1, 2} and every angle `theta` in degrees, `Rotate(i, theta)`
built on an identity default matrix is the rotation about coordinate axis `i` by
`a = theta * pi / 180` (with the constant `pi` of the file): with `j = (i + 1) mod 3` and
`k = (i + 2) mod 3` it maps `e_i` to itself, `e_j` to `cos a * e_j + sin a * e_k` and `e_k`
to `-sin a * e_j + cos a * e_k`, and it leaves the homogeneous coordinate of every vector
unchanged. -/
theorem Rotate_spec (i : Fin 3) (theta : ℝ) :
    mulVec (Rotate identity Real.sin Real.cos ((i : ℕ) : Int) theta) (unitVec (i : ℕ)) =
      unitVec (i : ℕ) ∧
    mulVec (Rotate identity Real.sin Real.cos ((i : ℕ) : Int) theta)
        (unitVec (((i : ℕ) + 1) % 3)) =
      combo (Real.cos (theta * pi / 180)) (unitVec (((i : ℕ) + 1) % 3))
        (Real.sin (theta * pi / 180)) (unitVec (((i : ℕ) + 2) % 3)) ∧
    mulVec (Rotate identity Real.sin Real.cos ((i : ℕ) : Int) theta)
        (unitVec (((i : ℕ) + 2) % 3)) =
      combo (-Real.sin (theta * pi / 180)) (unitVec (((i : ℕ) + 1) % 3))
        (Real.cos (theta * pi / 180)) (unitVec (((i : ℕ) + 2) % 3)) ∧
    ∀ v : Vec4 ℝ,
      (mulVec (Rotate identity Real.sin Real.cos ((i : ℕ) : Int) theta) v).w = v.w := by
  have t1 : Int.tmod 1 3 = 1 := rfl
  have t2 : Int.tmod 2 3 = 2 := rfl
  have t3 : Int.tmod 3 3 = 0 := rfl
  have t4 : Int.tmod 4 3 = 1 := rfl
  have n1 : (1 : Int).toNat = 1 := rfl
  have n2 : (2 : Int).toNat = 2 := rfl
  have n0 : (0 : Int).toNat = 0 := rfl
  fin_cases i <;> refine ⟨?_, ?_, ?_, ?_⟩ <;>
    simp [Rotate, t1, t2, t3, t4, n0, n1, n2, setEntry, identity, mulVec, unitVec, combo]

/-- C18: for `front`, `back` different from zero and from each other,
`Perspective(rx, ry, front, back)` built on an identity default matrix maps every point
`(x, y, z, 1)` to a point with `w = -z` whose `x` and `y` are scaled by `1 / rx` and
`1 / ry`; after the division by `w` the plane `z = -front` has depth -1 and the plane
`z = -back` has depth +1. -/
theorem Perspective_spec (rx ry front back x y z : ℝ) (hf : front ≠ 0) (hb : back ≠ 0)
    (hbf : back ≠ front) :
    (mulVec (Perspective identity rx ry front back) ⟨x, y, z, 1⟩).w = -z ∧
    (mulVec (Perspective identity rx ry front back) ⟨x, y, z, 1⟩).x = (1 / rx) * x ∧
    (mulVec (Perspective identity rx ry front back) ⟨x, y, z, 1⟩).y = (1 / ry) * y ∧
    (mulVec (Perspective identity rx ry front back) ⟨x, y, -front, 1⟩).z /
      (mulVec (Perspective identity rx ry front back) ⟨x, y, -front, 1⟩).w = -1 ∧
    (mulVec (Perspective identity rx ry front back) ⟨x, y, -back, 1⟩).z /
      (mulVec (Perspective identity rx ry front back) ⟨x, y, -back, 1⟩).w = 1 := by
  have hd : back - front ≠ 0 := sub_ne_zero.2 hbf
  refine ⟨?_, ?_, ?_, ?_, ?_⟩
  · simp [Perspective, setEntry, identity, mulVec]
  · simp [Perspective, setEntry, identity, mulVec]
  · simp [Perspective, setEntry, identity, mulVec]
  · simp only [Perspective, setEntry, identity, mulVec]
    norm_num
    field_simp
    ring
  · simp only [Perspective, setEntry, identity, mulVec]
    norm_num
    field_simp
    ring

/-- Witness for C18: `rx = 2`, `ry = 1`, `front = 1`, `back = 3` and the point (4, 5, 6). -/
theorem Perspective_spec_witness :
    (mulVec (Perspective identity (2 : ℝ) 1 1 3) ⟨4, 5, 6, 1⟩).w = -6 ∧
    (mulVec (Perspective identity (2 : ℝ) 1 1 3) ⟨4, 5, 6, 1⟩).x = (1 / 2) * 4 ∧
    (mulVec (Perspective identity (2 : ℝ) 1 1 3) ⟨4, 5, 6, 1⟩).y = (1 / 1) * 5 ∧
    (mulVec (Perspective identity (2 : ℝ) 1 1 3) ⟨4, 5, -1, 1⟩).z /
      (mulVec (Perspective identity (2 : ℝ) 1 1 3) ⟨4, 5, -1, 1⟩).w = -1 ∧
    (mulVec (Perspective identity (2 : ℝ) 1 1 3) ⟨4, 5, -3, 1⟩).z /
      (mulVec (Perspective identity (2 : ℝ) 1 1 3) ⟨4, 5, -3, 1⟩).w = 1 :=
  Perspective_spec 2 1 1 3 4 5 6 (by norm_num) (by norm_num) (by norm_num)

/-- The view matrix applied to a point: the coordinates of the point relative to the eye
along the three axes `A`, `B`, `-V` computed by `LookAt`. -/
theorem LookAt_mulVec (sqrt : ℝ → ℝ) (Eye Center Up p : Vec3 ℝ) :
    mulVec (LookAt identity sqrt Eye Center Up) ⟨p.x, p.y, p.z, 1⟩ =
      ⟨dot (normalize sqrt (cross (normalize sqrt (Center.sub Eye)) Up)) (p.sub Eye),
       dot (cross (normalize sqrt (cross (normalize sqrt (Center.sub Eye)) Up))
         (normalize sqrt (Center.sub Eye))) (p.sub Eye),
       -dot (normalize sqrt (Center.sub Eye)) (p.sub Eye), 1⟩ := by
  simp only [LookAt]
  generalize normalize sqrt (Center.sub Eye) = V
  generalize normalize sqrt (cross V Up) = A
  generalize cross A V = B
  ext
  · simp only [mulVec, mulMat, ofColumns, Translate, setEntry, identity, Vec4.get, dot,
      Vec3.sub]
    norm_num
    ring
  · simp only [mulVec, mulMat, ofColumns, Translate, setEntry, identity, Vec4.get, dot,
      Vec3.sub]
    norm_num
    ring
  · simp only [mulVec, mulMat, ofColumns, Translate, setEntry, identity, Vec4.get, dot,
      Vec3.sub]
    norm_num
    ring
  · simp only [mulVec, mulMat, ofColumns, Translate, setEntry, identity, Vec4.get, dot,
      Vec3.sub]
    norm_num

theorem dot_cross_left (u v : Vec3 ℝ) : dot (cross u v) u = 0 := by
  simp only [dot, cross]
  ring

theorem dot_cross_right (u v : Vec3 ℝ) : dot (cross u v) v = 0 := by
  simp only [dot, cross]
  ring

theorem dot_normalize_left (sqrt : ℝ → ℝ) (u v : Vec3 ℝ) :
    dot (normalize sqrt u) v = dot u v * (1 / sqrt (dot u u)) := by
  simp only [dot, normalize]
  ring

theorem dot_normalize_right (sqrt : ℝ → ℝ) (u v : Vec3 ℝ) :
    dot u (normalize sqrt v) = dot u v * (1 / sqrt (dot v v)) := by
  simp only [dot, normalize]
  ring

theorem cross_normalize_left (sqrt : ℝ → ℝ) (u v w : Vec3 ℝ) :
    dot (cross (normalize sqrt u) v) w = dot (cross u v) w * (1 / sqrt (dot u u)) := by
  simp only [dot, cross, normalize]
  ring

/-- C19: for `Center` different from `Eye` and `Up` not parallel to `Center - Eye`, the
view matrix `LookAt(Eye, Center, Up)` maps the point `(Eye, 1)` to `(0, 0, 0, 1)` and the
point `(Center, 1)` to `(0, 0, -|Center - Eye|, 1)` on the negative z axis. -/
theorem LookAt_spec (Eye Center Up : Vec3 ℝ) (_hne : Center ≠ Eye)
    (_hup : cross (Center.sub Eye) Up ≠ ⟨0, 0, 0⟩) :
    mulVec (LookAt identity Real.sqrt Eye Center Up) ⟨Eye.x, Eye.y, Eye.z, 1⟩ =
      ⟨0, 0, 0, 1⟩ ∧
    mulVec (LookAt identity Real.sqrt Eye Center Up) ⟨Center.x, Center.y, Center.z, 1⟩ =
      ⟨0, 0, -Real.sqrt (dot (Center.sub Eye) (Center.sub Eye)), 1⟩ := by
  constructor
  · rw [LookAt_mulVec]
    have h0 : Eye.sub Eye = (⟨0, 0, 0⟩ : Vec3 ℝ) := by
      simp [Vec3.sub]
    rw [h0]
    simp [dot]
  · rw [LookAt_mulVec]
    ext
    · show dot _ _ = 0
      rw [dot_normalize_left, cross_normalize_left, dot_cross_left]
      ring
    · show dot _ _ = 0
      have h : ∀ A d : Vec3 ℝ, dot (cross A (normalize Real.sqrt d)) d = 0 := by
        intro A d
        simp only [dot, cross, normalize]
        ring
      exact h _ _
    · show -dot _ _ = -Real.sqrt _
      rw [dot_normalize_left]
      have hd : 0 ≤ dot (Center.sub Eye) (Center.sub Eye) := by
        simp only [dot]
        nlinarith [mul_self_nonneg (Center.sub Eye).x, mul_self_nonneg (Center.sub Eye).y,
          mul_self_nonneg (Center.sub Eye).z]
      rw [mul_one_div, Real.div_sqrt]
    · rfl

/-- Witness for C19: the eye at (0, 0, 5) looking at the origin with `Up = (0, 1, 0)`. -/
theorem LookAt_spec_witness :
    mulVec (LookAt identity Real.sqrt ⟨0, 0, 5⟩ ⟨0, 0, 0⟩ ⟨0, 1, 0⟩) ⟨0, 0, 5, 1⟩ =
      ⟨0, 0, 0, 1⟩ ∧
    mulVec (LookAt identity Real.sqrt ⟨0, 0, 5⟩ ⟨0, 0, 0⟩ ⟨0, 1, 0⟩) ⟨0, 0, 0, 1⟩ =
      ⟨0, 0, -Real.sqrt (dot (Vec3.sub ⟨0, 0, 0⟩ ⟨0, 0, 5⟩) (Vec3.sub ⟨0, 0, 0⟩ ⟨0, 0, 5⟩)), 1⟩ :=
  LookAt_spec ⟨0, 0, 5⟩ ⟨0, 0, 0⟩ ⟨0, 1, 0⟩
    (by
      intro h
      have := congrArg Vec3.z h
      norm_num at this)
    (by
      intro h
      have := congrArg Vec3.x h
      simp [cross, Vec3.sub] at this)

end Transform

/-! ## The claim about the colour conversion -/

namespace Scene

/-- For a hue in `[0, 1)` the sector index is the floor of `6 h`, a number from 0 to 5, and
the fraction `f` lies in `[0, 1)`. -/
theorem sector_spec (h : ℝ) (h0 : 0 ≤ h) (h1 : h < 1) :
    (truncate (h * 6)).tmod 6 = ⌊h * 6⌋ ∧ 0 ≤ ⌊h * 6⌋ ∧ ⌊h * 6⌋ < 6 ∧
    0 ≤ h * 6 - ((⌊h * 6⌋ : Int) : ℝ) ∧ h * 6 - ((⌊h * 6⌋ : Int) : ℝ) < 1 := by
  have hx : 0 ≤ h * 6 := by linarith
  have hfl0 : 0 ≤ ⌊h * 6⌋ := Int.floor_nonneg.2 hx
  have hfl6 : ⌊h * 6⌋ < 6 := by
    rw [Int.floor_lt]
    push_cast
    linarith
  refine ⟨?_, hfl0, hfl6, ?_, ?_⟩
  · unfold truncate
    rw [if_pos hx]
    exact Int.tmod_eq_of_lt hfl0 hfl6
  · linarith [Int.floor_le (h * 6)]
  · linarith [Int.lt_floor_add_one (h * 6)]

theorem colour_bounds (a b c p v : ℝ) (ha : p ≤ a ∧ a ≤ v) (hb : p ≤ b ∧ b ≤ v)
    (hc : p ≤ c ∧ c ≤ v) (hmax : a = v ∨ b = v ∨ c = v) (hmin : a = p ∨ b = p ∨ c = p) :
    max a (max b c) = v ∧ min a (min b c) = p := by
  constructor
  · apply le_antisymm (max_le ha.2 (max_le hb.2 hc.2))
    rcases hmax with h | h | h
    · exact h ▸ le_max_left _ _
    · exact le_trans (h ▸ le_max_left b c) (le_max_right _ _)
    · exact le_trans (h ▸ le_max_right b c) (le_max_right _ _)
  · apply le_antisymm _ (le_min ha.1 (le_min hb.1 hc.1))
    rcases hmin with h | h | h
    · exact h ▸ min_le_left _ _
    · exact le_trans (min_le_right _ _) (h ▸ min_le_left b c)
    · exact le_trans (min_le_right _ _) (h ▸ min_le_right b c)

/-- The six sectors: each colour consists of `v`, `p` and one of `q`, `t`. -/
theorem sector_colour (n : Int) (p q t v : ℝ) (hpq : p ≤ q) (hqv : q ≤ v) (hpt : p ≤ t)
    (htv : t ≤ v) (hpv : p ≤ v) (c : ℝ × ℝ × ℝ)
    (hc : c = if n = 0 then (v, t, p) else if n = 1 then (q, v, p)
      else if n = 2 then (p, v, t) else if n = 3 then (p, q, v)
      else if n = 4 then (t, p, v) else (v, p, q)) :
    (p ≤ c.1 ∧ c.1 ≤ v) ∧ (p ≤ c.2.1 ∧ c.2.1 ≤ v) ∧ (p ≤ c.2.2 ∧ c.2.2 ≤ v) ∧
    (c.1 = v ∨ c.2.1 = v ∨ c.2.2 = v) ∧ (c.1 = p ∨ c.2.1 = p ∨ c.2.2 = p) := by
  subst hc
  split_ifs
  · exact ⟨⟨hpv, le_rfl⟩, ⟨hpt, htv⟩, ⟨le_rfl, hpv⟩, Or.inl rfl, Or.inr (Or.inr rfl)⟩
  · exact ⟨⟨hpq, hqv⟩, ⟨hpv, le_rfl⟩, ⟨le_rfl, hpv⟩, Or.inr (Or.inl rfl), Or.inr (Or.inr rfl)⟩
  · exact ⟨⟨le_rfl, hpv⟩, ⟨hpv, le_rfl⟩, ⟨hpt, htv⟩, Or.inr (Or.inl rfl), Or.inl rfl⟩
  · exact ⟨⟨le_rfl, hpv⟩, ⟨hpq, hqv⟩, ⟨hpv, le_rfl⟩, Or.inr (Or.inr rfl), Or.inl rfl⟩
  · exact ⟨⟨hpt, htv⟩, ⟨le_rfl, hpv⟩, ⟨hpv, le_rfl⟩, Or.inr (Or.inr rfl), Or.inr (Or.inl rfl)⟩
  · exact ⟨⟨hpv, le_rfl⟩, ⟨le_rfl, hpv⟩, ⟨hpq, hqv⟩, Or.inl rfl, Or.inr (Or.inl rfl)⟩

/-- The components of `HSV2RGB(h, s, v)` lie between `v * (1 - s)` and `v`, and both bounds
are components. -/
theorem HSV2RGB_components (h s v : ℝ) (h0 : 0 ≤ h) (h1 : h < 1) (s0 : 0 ≤ s) (s1 : s ≤ 1)
    (v0 : 0 ≤ v) :
    (v * (1 - s) ≤ (HSV2RGB h s v).1 ∧ (HSV2RGB h s v).1 ≤ v) ∧
    (v * (1 - s) ≤ (HSV2RGB h s v).2.1 ∧ (HSV2RGB h s v).2.1 ≤ v) ∧
    (v * (1 - s) ≤ (HSV2RGB h s v).2.2 ∧ (HSV2RGB h s v).2.2 ≤ v) ∧
    ((HSV2RGB h s v).1 = v ∨ (HSV2RGB h s v).2.1 = v ∨ (HSV2RGB h s v).2.2 = v) ∧
    ((HSV2RGB h s v).1 = v * (1 - s) ∨ (HSV2RGB h s v).2.1 = v * (1 - s) ∨
      (HSV2RGB h s v).2.2 = v * (1 - s)) := by
  obtain ⟨hi, hfl0, hfl6, hf0, hf1⟩ := sector_spec h h0 h1
  by_cases hs : s = 0
  · subst hs
    have hgrey : HSV2RGB h 0 v = (v, v, v) := by
      unfold HSV2RGB
      rw [if_pos rfl]
    rw [hgrey]
    simp
  · have hsf0 : 0 ≤ s * (h * 6 - ((⌊h * 6⌋ : Int) : ℝ)) := mul_nonneg s0 hf0
    have hsf1 : s * (h * 6 - ((⌊h * 6⌋ : Int) : ℝ)) ≤ s := by nlinarith
    have hsg0 : 0 ≤ s * (1 - (h * 6 - ((⌊h * 6⌋ : Int) : ℝ))) :=
      mul_nonneg s0 (by linarith)
    have hsg1 : s * (1 - (h * 6 - ((⌊h * 6⌋ : Int) : ℝ))) ≤ s := by nlinarith
    refine sector_colour ⌊h * 6⌋ (v * (1 - s))
      (v * (1 - s * (h * 6 - ((⌊h * 6⌋ : Int) : ℝ))))
      (v * (1 - s * (1 - (h * 6 - ((⌊h * 6⌋ : Int) : ℝ))))) v
      (by nlinarith) (by nlinarith) (by nlinarith) (by nlinarith) (by nlinarith) _ ?_
    unfold HSV2RGB
    rw [if_neg hs]
    simp only [hi]

/-- C20: for a hue `0 <= h < 1`, a saturation `0 <= s <= 1` and a value `v >= 0`, the
largest component of `HSV2RGB(h, s, v)` is `v` and the smallest is `v * (1 - s)`, so every
component lies between them; and for `s = 0` the colour is the grey `(v, v, v)` for every
hue. -/
theorem HSV2RGB_spec (h s v : ℝ) (h0 : 0 ≤ h) (h1 : h < 1) (s0 : 0 ≤ s) (s1 : s ≤ 1)
    (v0 : 0 ≤ v) :
    max (HSV2RGB h s v).1 (max (HSV2RGB h s v).2.1 (HSV2RGB h s v).2.2) = v ∧
    min (HSV2RGB h s v).1 (min (HSV2RGB h s v).2.1 (HSV2RGB h s v).2.2) = v * (1 - s) ∧
    (v * (1 - s) ≤ (HSV2RGB h s v).1 ∧ (HSV2RGB h s v).1 ≤ v) ∧
    (v * (1 - s) ≤ (HSV2RGB h s v).2.1 ∧ (HSV2RGB h s v).2.1 ≤ v) ∧
    (v * (1 - s) ≤ (HSV2RGB h s v).2.2 ∧ (HSV2RGB h s v).2.2 ≤ v) ∧
    ∀ h' : ℝ, HSV2RGB h' 0 v = (v, v, v) := by
  obtain ⟨ha, hb, hc, hmax, hmin⟩ := HSV2RGB_components h s v h0 h1 s0 s1 v0
  obtain ⟨m1, m2⟩ := colour_bounds _ _ _ _ _ ha hb hc hmax hmin
  refine ⟨m1, m2, ha, hb, hc, fun h' => ?_⟩
  unfold HSV2RGB
  rw [if_pos rfl]

/-- Witness for C20: hue 1/2, saturation 1/2, value 1. -/
theorem HSV2RGB_spec_witness :
    max (HSV2RGB (1 / 2 : ℝ) (1 / 2) 1).1
      (max (HSV2RGB (1 / 2 : ℝ) (1 / 2) 1).2.1 (HSV2RGB (1 / 2 : ℝ) (1 / 2) 1).2.2) = 1 ∧
    min (HSV2RGB (1 / 2 : ℝ) (1 / 2) 1).1
      (min (HSV2RGB (1 / 2 : ℝ) (1 / 2) 1).2.1 (HSV2RGB (1 / 2 : ℝ) (1 / 2) 1).2.2) =
      1 * (1 - 1 / 2) :=
  ⟨(HSV2RGB_spec (1 / 2) (1 / 2) 1 (by norm_num) (by norm_num) (by norm_num) (by norm_num)
      (by norm_num)).1,
    (HSV2RGB_spec (1 / 2) (1 / 2) 1 (by norm_num) (by norm_num) (by norm_num) (by norm_num)
      (by norm_num)).2.1⟩

end Scene
